import Mathlib

/-!
A verification development for the `xskillscore.core.deterministic` module:
five weighted verification metrics (`pearson_r`, `pearson_r_p_value`, `rmse`,
`mse`, `mae`) over labeled multi-dimensional arrays, together with their two
preprocessing helpers `_preprocess_dims` and `_preprocess_weights`.

The labeled-array engine (xarray) and the elementwise numeric kernels
(`_pearson_r`, `_rmse`, ... from `np_deterministic`) are external to the
module and out of scope; the module's job is dimension bookkeeping, weight
validation/normalization/broadcasting, and assembling the final
`xr.apply_ufunc` invocation.  We therefore embed a labeled array concretely
(ordered dimension names, shape, and a total data function from
multi-indices to values) and embed each metric function as a computation of
either a validation error or the full record of the `apply_ufunc` call it
dispatches (kernel identity, the prepared argument arrays, the
`input_core_dims` argument and the `axis` keyword).  The engine's output is
a function of that record, so equality of records models equality of
results.

Weight values are rationals extended with `+inf`, `-inf` and `NaN` so that
the unguarded division `weights / weights.max()` is modelled with IEEE
semantics when the maximum is zero, and xarray's NaN-skipping `min` is
modelled faithfully.
-/

/-- Extended numeric value: a finite rational, `+inf`, `-inf`, or `NaN`.
Models the float values that can result from the unguarded division
`weights / weights.max()`. -/
inductive Val : Type where
  | fin (q : ℚ)
  | pinf
  | ninf
  | nan
deriving DecidableEq

/-- Exact rational division, written via `Rat.divInt` so that the kernel
can evaluate it on literals; `ratDiv_eq_div` below shows it is ordinary
division. -/
def ratDiv (a b : ℚ) : ℚ := Rat.divInt (a.num * b.den) (a.den * b.num)

/-- IEEE-style division of two finite values: division by zero yields a
signed infinity (or `NaN` for `0/0`). -/
def divQ (q m : ℚ) : Val :=
  if m = 0 then (if q < 0 then .ninf else if 0 < q then .pinf else .nan)
  else .fin (ratDiv q m)

/-- Is the value `NaN`? -/
def Val.isNan : Val → Bool
  | .nan => true
  | _ => false

/-- Is the value a finite rational? -/
def Val.isFin : Val → Bool
  | .fin _ => true
  | _ => false

/-- Comparison `x ≤ y` on extended values; any comparison with `NaN` is
false, as for IEEE floats. -/
def vle : Val → Val → Bool
  | .nan, _ => false
  | _, .nan => false
  | .ninf, _ => true
  | .fin _, .ninf => false
  | .pinf, .ninf => false
  | .fin a, .fin b => decide (a ≤ b)
  | .fin _, .pinf => true
  | .pinf, .fin _ => false
  | .pinf, .pinf => true

/-- Binary minimum on extended values (used only on non-`NaN` values). -/
def vmin2 (x y : Val) : Val := if vle x y then x else y

/-- `NaN`-skipping minimum of a list of values, as computed by xarray's
`.min()` with its default `skipna=True`; the minimum of an all-`NaN` list
is `NaN`. -/
def vminSkip (l : List Val) : Val :=
  match l.filter (fun v => !v.isNan) with
  | [] => .nan
  | h :: t => t.foldl vmin2 h

/-- Is the value strictly below zero?  (`NaN < 0` is false, as for floats.) -/
def valLt0 : Val → Bool
  | .ninf => true
  | .fin q => decide (q < 0)
  | _ => false

/-- Maximum of a list of rationals (the list is nonempty in every reachable
use; numpy's `max` errors on an empty array). -/
def qmaxL : List ℚ → ℚ
  | [] => 0
  | h :: t => t.foldl max h

/-- Product of a list of sizes. -/
def prodL (l : List Nat) : Nat := l.foldr (· * ·) 1

/-- Decompose a flat row-major index into a multi-index for the given shape. -/
def unflattenIdx : List Nat → Nat → List Nat
  | [], _ => []
  | s :: rest, n => (n / prodL rest) % s :: unflattenIdx rest (n % prodL rest)

/-- A labeled multi-dimensional array: ordered dimension names, the size of
each dimension, and a total data function from multi-indices (one index per
dimension, in order) to values. -/
structure DArr (α : Type) : Type where
  dims : List String
  shape : List Nat
  data : List Nat → α

/-- All entries of the array, enumerated in row-major order. -/
def vals {α : Type} (x : DArr α) : List α :=
  (List.range (prodL x.shape)).map (fun n => x.data (unflattenIdx x.shape n))

/-- The array's dimension-name-to-size mapping (`dict(x.sizes)`), as an
association list in dimension order. -/
def sizesD {α : Type} (x : DArr α) : List (String × Nat) := x.dims.zip x.shape

/-- Lookup in an association list (first match wins, as in a Python dict
built from unique keys). -/
def dlook : List (String × Nat) → String → Option Nat
  | [], _ => none
  | p :: t, k => if p.1 == k then some p.2 else dlook t k

/-- Equality of two association lists viewed as Python dicts: the same keys
with the same values on both sides. -/
def dictEq (d e : List (String × Nat)) : Bool :=
  d.all (fun p => dlook e p.1 == some p.2) && e.all (fun p => dlook d p.1 == some p.2)

/-- Position of a name in a list of names (first occurrence). -/
def posOf (l : List String) (d : String) : Nat := l.findIdx (fun x => x == d)

/-- Size of the named dimension in an array. -/
def sizeIn {α : Type} (x : DArr α) (d : String) : Nat :=
  x.shape.getD (posOf x.dims d) 0

/-- Rebuild a full multi-index from a sub-index over the kept dimensions,
putting index `0` at every dropped dimension (`isel(drop_dims)` with all
indices `0`). -/
def embedIdx : List String → List String → List Nat → List Nat
  | [], _, _ => []
  | d :: ds, drop, sub =>
    if drop.contains d then 0 :: embedIdx ds drop sub
    else sub.headD 0 :: embedIdx ds drop sub.tail

/-- `x.isel({k : 0 for k in drop})`: select index 0 along each dimension in
`drop` and drop those dimensions. -/
def isel0 {α : Type} (x : DArr α) (drop : List String) : DArr α :=
  let kept := (sizesD x).filter (fun p => !drop.contains p.1)
  ⟨kept.map (·.1), kept.map (·.2), fun idx => x.data (embedIdx x.dims drop idx)⟩

/-- `xr.broadcast(a, w)` (second component): broadcast `w` against `a` by
dimension name.  The result carries `a`'s dimensions (plus any extra
dimensions of `w`, replicated), and reads `w` at the sub-index over `w`'s
own dimensions. -/
def broadcastTo {α β : Type} (a : DArr α) (w : DArr β) : DArr β :=
  let extra := (sizesD w).filter (fun p => !a.dims.contains p.1)
  let rdims := a.dims ++ extra.map (·.1)
  ⟨rdims, a.shape ++ extra.map (·.2),
   fun idx => w.data (w.dims.map (fun d => idx.getD (posOf rdims d) 0))⟩

/-- Rebuild a full multi-index of `xdims` from the unstacked index `sIdx`
over the stacked dimensions `sdims` plus the outer index `outer` over the
remaining dimensions, consumed in order. -/
def buildIdx : List String → List String → List Nat → List Nat → List Nat
  | [], _, _, _ => []
  | d :: ds, sdims, sIdx, outer =>
    if sdims.contains d then sIdx.getD (posOf sdims d) 0 :: buildIdx ds sdims sIdx outer
    else outer.headD 0 :: buildIdx ds sdims sIdx outer.tail

/-- `x.stack(**{newName: sdims})`: combine the dimensions `sdims` (in the
given order, first one slowest) into a single new trailing dimension whose
size is the product of theirs. -/
def stackDims {α : Type} (x : DArr α) (newName : String) (sdims : List String) : DArr α :=
  let keep := (sizesD x).filter (fun p => !sdims.contains p.1)
  let sShape := sdims.map (fun d => sizeIn x d)
  ⟨keep.map (·.1) ++ [newName],
   keep.map (·.2) ++ [prodL sShape],
   fun ridx =>
     x.data (buildIdx x.dims sdims (unflattenIdx sShape (ridx.getD keep.length 0))
       (ridx.take keep.length))⟩

/-- Is `n` a contiguous sublist of the second list?  (Python's `in` on
strings.) -/
def subChars (n : List Char) : List Char → Bool
  | [] => n.isEmpty
  | c :: t => n.isPrefixOf (c :: t) || subChars n t

/-- Python's substring containment `n in h` for strings. -/
def subStrOf (n h : String) : Bool := subChars n.data h.data

/-- The `new_dim` argument of `_preprocess_weights`: the correlation-family
functions pass a single string, the error-family functions pass the
original list of dimension names. -/
inductive NewDim : Type where
  | str (s : String)
  | listd (l : List String)
deriving DecidableEq

/-- Python's `i in new_dim`: substring containment when `new_dim` is a
string, list membership when it is a list. -/
def inNewDim (i : String) : NewDim → Bool
  | .str s => subStrOf i s
  | .listd l => l.contains i

/-- `drop_dims = [i for i in a.dims if i not in new_dim]`. -/
def dropDimsOf {α : Type} (a : DArr α) (nd : NewDim) : List String :=
  a.dims.filter (fun i => !inNewDim i nd)

/-- `dict(a.isel(drop_dims).sizes)`: the size mapping that the weights
array is required to equal. -/
def reqSizes {α : Type} (a : DArr α) (nd : NewDim) : List (String × Nat) :=
  sizesD (isel0 a (dropDimsOf a nd))

/-- The two `ValueError`s of `_preprocess_weights`, with the data their
messages carry: the negative-weight error's message is fixed text; the
dimension-mismatch error's message interpolates the requested `dim` and the
two conflicting size mappings. -/
inductive DetError : Type where
  | negWeight
  | dimMismatch (dim : List String) (wsizes asizes : List (String × Nat))
deriving DecidableEq

/-- `xr.ones_like(a)`: an array of ones with `a`'s dimensions and shape. -/
def onesLike (a : DArr ℚ) : DArr Val := ⟨a.dims, a.shape, fun _ => .fin 1⟩

/-- `weights / weights.max()`: the normalized weights array. -/
def normW (w : DArr ℚ) : DArr Val :=
  ⟨w.dims, w.shape, fun i => divQ (w.data i) (qmaxL (vals w))⟩

/-- `_preprocess_weights(a, dim, new_dim, weights)`: supply uniform weights
when `weights is None`; otherwise normalize by the maximum, reject a
normalized minimum below zero, reject a size mapping different from that of
`a` restricted to the non-dropped dimensions, and broadcast up to `a`'s
full shape when needed. -/
def preprocess_weights (a : DArr ℚ) (dim : List String) (newDim : NewDim)
    (weights : Option (DArr ℚ)) : Except DetError (DArr Val) :=
  match weights with
  | none => .ok (onesLike a)
  | some w =>
    let wn := normW w
    if valLt0 (vminSkip (vals wn)) then .error .negWeight
    else if dictEq (sizesD wn) (reqSizes a newDim) = false then
      .error (.dimMismatch dim (sizesD wn) (reqSizes a newDim))
    else if dictEq (sizesD wn) (sizesD a) = false then
      .ok (broadcastTo a wn)
    else .ok wn

/-- The `dim` argument of a metric function: a single name or a list of
names. -/
inductive DimInput : Type where
  | str (s : String)
  | listd (l : List String)
deriving DecidableEq

/-- Python's `range(start, stop, -1)`. -/
def rangeStepNeg1 (start stop : Int) : List Int :=
  (List.range (start - stop).toNat).map (fun k => start - k)

/-- `_preprocess_dims(dim)`: wrap a single string into a one-element list
and compute the trailing-axes tuple `tuple(range(-1, -len(dim) - 1, -1))`. -/
def preprocess_dims (d : DimInput) : List String × List Int :=
  let dim := match d with | .str x => [x] | .listd xs => xs
  (dim, rangeStepNeg1 (-1) (-(dim.length : Int) - 1))

/-- Which elementwise kernel from `np_deterministic` the call dispatches to
(the kernels themselves are out-of-scope external reducers). -/
inductive KernelId : Type where
  | pearsonK
  | pearsonPK
  | rmseK
  | mseK
  | maeK
deriving DecidableEq

/-- The `axis` keyword handed to the kernel: the correlation family passes
the single integer `-1`, the error family passes the whole axis tuple. -/
inductive AxisArg : Type where
  | one (i : Int)
  | many (t : List Int)
deriving DecidableEq

/-- The full record of the `xr.apply_ufunc` invocation a metric function
dispatches: kernel, the prepared input arrays, `input_core_dims`, and the
`axis` keyword.  The external engine's result is a function of this record,
so equal records denote equal metric results. -/
structure UfuncCall : Type where
  kernel : KernelId
  argA : DArr ℚ
  argB : DArr ℚ
  argW : DArr Val
  inCoreDims : List (List String)
  axisKw : AxisArg

/-- `pearson_r(a, b, dim, weights)`: normalize `dim`; with more than one
reduction dimension, stack `a`, `b` and (if present) `weights` into one
combined underscore-joined dimension; preprocess weights against the
(possibly stacked) `a`; dispatch the Pearson kernel along the single core
dimension with `axis=-1`. -/
def pearson_r (a b : DArr ℚ) (dimIn : DimInput) (weights : Option (DArr ℚ)) :
    Except DetError UfuncCall :=
  let dim := (preprocess_dims dimIn).1
  if 1 < dim.length then
    let newDim := String.intercalate "_" dim
    let a2 := stackDims a newDim dim
    let b2 := stackDims b newDim dim
    let w2 := Option.map (fun w => stackDims w newDim dim) weights
    Except.map
      (fun wts => ⟨.pearsonK, a2, b2, wts, [[newDim], [newDim], [newDim]], .one (-1)⟩)
      (preprocess_weights a2 dim (.str newDim) w2)
  else
    let newDim := dim.headD ""
    Except.map
      (fun wts => ⟨.pearsonK, a, b, wts, [[newDim], [newDim], [newDim]], .one (-1)⟩)
      (preprocess_weights a dim (.str newDim) weights)

/-- `pearson_r_p_value(a, b, dim, weights)`: identical handling to
`pearson_r`, dispatching the p-value kernel. -/
def pearson_r_p_value (a b : DArr ℚ) (dimIn : DimInput) (weights : Option (DArr ℚ)) :
    Except DetError UfuncCall :=
  let dim := (preprocess_dims dimIn).1
  if 1 < dim.length then
    let newDim := String.intercalate "_" dim
    let a2 := stackDims a newDim dim
    let b2 := stackDims b newDim dim
    let w2 := Option.map (fun w => stackDims w newDim dim) weights
    Except.map
      (fun wts => ⟨.pearsonPK, a2, b2, wts, [[newDim], [newDim], [newDim]], .one (-1)⟩)
      (preprocess_weights a2 dim (.str newDim) w2)
  else
    let newDim := dim.headD ""
    Except.map
      (fun wts => ⟨.pearsonPK, a, b, wts, [[newDim], [newDim], [newDim]], .one (-1)⟩)
      (preprocess_weights a dim (.str newDim) weights)

/-- `rmse(a, b, dim, weights)`: no stacking; weights are preprocessed with
the original dimension list as `new_dim`, and the whole axis tuple is
passed to the kernel. -/
def rmse (a b : DArr ℚ) (dimIn : DimInput) (weights : Option (DArr ℚ)) :
    Except DetError UfuncCall :=
  let dim := (preprocess_dims dimIn).1
  let axis := (preprocess_dims dimIn).2
  Except.map (fun wts => ⟨.rmseK, a, b, wts, [dim, dim, dim], .many axis⟩)
    (preprocess_weights a dim (.listd dim) weights)

/-- `mse(a, b, dim, weights)`: same structure as `rmse` with the MSE
kernel. -/
def mse (a b : DArr ℚ) (dimIn : DimInput) (weights : Option (DArr ℚ)) :
    Except DetError UfuncCall :=
  let dim := (preprocess_dims dimIn).1
  let axis := (preprocess_dims dimIn).2
  Except.map (fun wts => ⟨.mseK, a, b, wts, [dim, dim, dim], .many axis⟩)
    (preprocess_weights a dim (.listd dim) weights)

/-- `mae(a, b, dim, weights)`: same structure as `rmse` with the MAE
kernel. -/
def mae (a b : DArr ℚ) (dimIn : DimInput) (weights : Option (DArr ℚ)) :
    Except DetError UfuncCall :=
  let dim := (preprocess_dims dimIn).1
  let axis := (preprocess_dims dimIn).2
  Except.map (fun wts => ⟨.maeK, a, b, wts, [dim, dim, dim], .many axis⟩)
    (preprocess_weights a dim (.listd dim) weights)

/-- The public metric function surface, indexed by kernel. -/
def callMetric : KernelId → DArr ℚ → DArr ℚ → DimInput → Option (DArr ℚ) →
    Except DetError UfuncCall
  | .pearsonK => pearson_r
  | .pearsonPK => pearson_r_p_value
  | .rmseK => rmse
  | .mseK => mse
  | .maeK => mae

/-- Did the call succeed (no validation error)? -/
def exOk {α : Type} : Except DetError α → Bool
  | .ok _ => true
  | .error _ => false

/-- Did the call raise the negative-weight error? -/
def isNegErr {α : Type} : Except DetError α → Bool
  | .error .negWeight => true
  | _ => false

/-- Did the call raise the dimension-mismatch error? -/
def isDimErr {α : Type} : Except DetError α → Bool
  | .error (.dimMismatch _ _ _) => true
  | _ => false

/-- Transpose an array so the listed core dimensions become the trailing
axes in the listed order, the remaining dimensions keeping their relative
order.  This is the layout normalization `xr.apply_ufunc` applies to each
input for its `input_core_dims`. -/
def transposeCore {α : Type} (core : List String) (x : DArr α) : DArr α :=
  let ord := x.dims.filter (fun i => !core.contains i) ++ core
  ⟨ord, ord.map (fun i => sizeIn x i),
   fun ridx => x.data (x.dims.map (fun i => ridx.getD (posOf ord i) 0))⟩

/-- The canonical form of an `apply_ufunc` invocation: each argument
transposed so its core dimensions are the trailing axes, exactly as
`xr.apply_ufunc` does before handing the data to the kernel.  The engine's
result depends on the invocation only through this canonical form. -/
def canonCall (c : UfuncCall) : UfuncCall :=
  let core := c.inCoreDims.headD []
  ⟨c.kernel, transposeCore core c.argA, transposeCore core c.argB,
   transposeCore core c.argW, c.inCoreDims, c.axisKw⟩

/-- Does the metric function stack multiple reduction dimensions before
reducing?  True exactly for the correlation family. -/
def usesStack : KernelId → Bool
  | .pearsonK => true
  | .pearsonPK => true
  | _ => false

/-- The combined dimension name `'_'.join(dim)` used by the correlation
family when stacking. -/
def joinedName (d : List String) : String := String.intercalate "_" d

/-- The single dimension name the correlation family hands to
`_preprocess_weights` as `new_dim`: the joined name after stacking, or
`dim[0]` when a single dimension is requested. -/
def ndName (d : List String) : String :=
  if 1 < d.length then joinedName d else d.headD ""

/-- The array (input or weights) as it reaches `_preprocess_weights` in
metric `k`: stacked for a correlation-family call with more than one
reduction dimension, unchanged otherwise. -/
def effA (k : KernelId) (x : DArr ℚ) (d : List String) : DArr ℚ :=
  if usesStack k && decide (1 < d.length) then stackDims x (joinedName d) d else x

/-- The `new_dim` argument `_preprocess_weights` receives in metric `k`:
a single string for the correlation family, the dimension list for the
error family. -/
def effNd (k : KernelId) (d : List String) : NewDim :=
  if usesStack k then .str (ndName d) else .listd d

/-- An all-ones weights array over the reduction dimensions `d`, sized to
match `a` (the shape the weight preprocessor's size check expects). -/
def onesOver (a : DArr ℚ) (d : List String) : DArr ℚ :=
  ⟨d, d.map (fun x => sizeIn a x), fun _ => 1⟩

/-- Is the value a finite rational in the interval `[0, 1]`? -/
def inUnit : Val → Bool
  | .fin q => decide (0 ≤ q) && decide (q ≤ 1)
  | _ => false

/-- Example array: one dimension `"t"` of size 2. -/
def aT : DArr ℚ := ⟨["t"], [2], fun _ => 0⟩

/-- Example array: one dimension `"t"` of size 3. -/
def a3T : DArr ℚ := ⟨["t"], [3], fun _ => 0⟩

/-- Example weights over `"t"` (size 2) whose entries are all negative:
values `[-1, -2]`. -/
def wAllNeg : DArr ℚ := ⟨["t"], [2], fun i => if i.headD 0 == 0 then -1 else -2⟩

/-- Example weights over `"t"` (size 2) with one negative and one positive
entry: values `[-1, 1]`. -/
def wMix : DArr ℚ := ⟨["t"], [2], fun i => if i.headD 0 == 0 then -1 else 1⟩

/-- Example weights over `"t"` (size 2) that are identically zero. -/
def wZero : DArr ℚ := ⟨["t"], [2], fun _ => 0⟩

/-- Example weights over `"t"` (size 2) with the positive entries
`[1, 2]`. -/
def wHalf : DArr ℚ := ⟨["t"], [2], fun i => if i.headD 0 == 0 then 1 else 2⟩

/-- Example array with two dimensions `"x"`, `"y"` of sizes 2 and 3. -/
def aXY : DArr ℚ := ⟨["x", "y"], [2, 3], fun _ => 0⟩

/-- Example array whose first dimension name `"tim"` is a substring of its
second dimension name `"time"`. -/
def aSub : DArr ℚ := ⟨["tim", "time"], [4, 5], fun _ => 0⟩

/-! ## Basic lemmas -/

theorem ratDiv_eq_div (a b : ℚ) : ratDiv a b = a / b := by
  rw [ratDiv, Rat.divInt_eq_div]
  rcases eq_or_ne b 0 with hb | hb
  · subst hb; simp
  · have had : ((a.den : ℚ)) ≠ 0 := by
      exact_mod_cast Nat.cast_ne_zero.mpr a.den_nz
    have hbn : ((b.num : ℚ)) ≠ 0 := by
      exact_mod_cast Int.cast_ne_zero.mpr (Rat.num_ne_zero.mpr hb)
    have hbd : ((b.den : ℚ)) ≠ 0 := by
      exact_mod_cast Nat.cast_ne_zero.mpr b.den_nz
    have ha := (div_eq_iff had).mp (Rat.num_div_den a)
    have hbq := (div_eq_iff hbd).mp (Rat.num_div_den b)
    push_cast
    rw [div_eq_div_iff (mul_ne_zero had hbn) hb, ha, hbq]
    ring

theorem DArr.ext {α : Type} {x y : DArr α} (h1 : x.dims = y.dims)
    (h2 : x.shape = y.shape) (h3 : x.data = y.data) : x = y := by
  cases x; cases y; simp_all

theorem vle_refl (x : Val) (h : x.isNan = false) : vle x x = true := by
  cases x <;> simp_all [vle, Val.isNan]

theorem vle_total (x y : Val) (hx : x.isNan = false) (hy : y.isNan = false) :
    vle x y = true ∨ vle y x = true := by
  cases x <;> cases y <;> simp_all [vle, Val.isNan, le_total]

theorem vle_trans {x y z : Val} (h1 : vle x y = true) (h2 : vle y z = true) :
    vle x z = true := by
  cases x <;> cases y <;> cases z <;> simp_all [vle] <;> linarith

theorem vle_not_nan_left {x y : Val} (h : vle x y = true) : x.isNan = false := by
  cases x <;> cases y <;> simp_all [vle, Val.isNan]

theorem foldl_vmin_mem (t : List Val) (h : Val) :
    t.foldl vmin2 h = h ∨ t.foldl vmin2 h ∈ t := by
  induction t generalizing h with
  | nil => left; rfl
  | cons a t ih =>
    rcases ih (vmin2 h a) with he | he
    · rw [List.foldl_cons, he]
      unfold vmin2
      split
      · left; rfl
      · right; exact List.mem_cons_self a t
    · right
      rw [List.foldl_cons]
      exact List.mem_cons_of_mem a he

theorem vmin2_le_left {u v : Val} (hu : u.isNan = false) (hv : v.isNan = false) :
    vle (vmin2 u v) u = true := by
  unfold vmin2
  by_cases hc : vle u v = true
  · simp [hc, vle_refl u hu]
  · have hvu := (vle_total u v hu hv).resolve_left hc
    simp [hc, hvu]

theorem vmin2_le_right {u v : Val} (hu : u.isNan = false) (hv : v.isNan = false) :
    vle (vmin2 u v) v = true := by
  unfold vmin2
  by_cases hc : vle u v = true
  · simp [hc]
  · have hvu := (vle_total u v hu hv).resolve_left hc
    simp [hc, vle_refl v hv]

theorem vmin2_not_nan {u v : Val} (hu : u.isNan = false) (hv : v.isNan = false) :
    (vmin2 u v).isNan = false := by
  unfold vmin2; split <;> assumption

theorem foldl_vmin_le_init (t : List Val) (h : Val) (hh : h.isNan = false)
    (ht : ∀ v ∈ t, v.isNan = false) : vle (t.foldl vmin2 h) h = true := by
  induction t generalizing h with
  | nil => exact vle_refl h hh
  | cons a t ih =>
    have ha : a.isNan = false := ht a (List.mem_cons_self a t)
    have ht2 : ∀ v ∈ t, v.isNan = false := fun v hv => ht v (List.mem_cons_of_mem a hv)
    rw [List.foldl_cons]
    exact vle_trans (ih (vmin2 h a) (vmin2_not_nan hh ha) ht2) (vmin2_le_left hh ha)

theorem foldl_vmin_le_mem (t : List Val) (h x : Val) (hx : x ∈ t)
    (hh : h.isNan = false) (ht : ∀ v ∈ t, v.isNan = false) :
    vle (t.foldl vmin2 h) x = true := by
  induction t generalizing h with
  | nil => cases hx
  | cons a t ih =>
    have ha : a.isNan = false := ht a (List.mem_cons_self a t)
    have ht2 : ∀ v ∈ t, v.isNan = false := fun v hv => ht v (List.mem_cons_of_mem a hv)
    rw [List.foldl_cons]
    rcases List.mem_cons.mp hx with rfl | hm
    · exact vle_trans (foldl_vmin_le_init t (vmin2 h x) (vmin2_not_nan hh ha) ht2)
        (vmin2_le_right hh ha)
    · exact ih (vmin2 h a) hm (vmin2_not_nan hh ha) ht2

theorem vminSkip_le (l : List Val) (x : Val) (hx : x ∈ l) (hnn : x.isNan = false) :
    vle (vminSkip l) x = true := by
  unfold vminSkip
  have hxf : x ∈ l.filter (fun v => !v.isNan) := by
    simp [List.mem_filter, hx, hnn]
  split
  · simp_all
  · rename_i h t heq
    rw [heq] at hxf
    have hall : ∀ v ∈ h :: t, v.isNan = false := by
      intro v hv
      have hvf : v ∈ l.filter (fun v => !v.isNan) := heq ▸ hv
      simpa using (List.mem_filter.mp hvf).2
    have hh : h.isNan = false := hall h (List.mem_cons_self h t)
    have ht : ∀ v ∈ t, v.isNan = false := fun v hv => hall v (List.mem_cons_of_mem h hv)
    rcases List.mem_cons.mp hxf with rfl | hm
    · exact foldl_vmin_le_init t x hh ht
    · exact foldl_vmin_le_mem t h x hm hh ht

theorem vminSkip_mem (l : List Val) : vminSkip l = .nan ∨ vminSkip l ∈ l := by
  unfold vminSkip
  split
  · left; rfl
  · rename_i h t heq
    right
    have hsub : ∀ v, v ∈ h :: t → v ∈ l := by
      intro v hv
      exact List.mem_of_mem_filter (heq ▸ hv)
    rcases foldl_vmin_mem t h with he | he
    · rw [he]; exact hsub h (List.mem_cons_self h t)
    · exact hsub _ (List.mem_cons_of_mem h he)

theorem valLt0_of_vle {v x : Val} (h : vle v x = true) (hx : valLt0 x = true) :
    valLt0 v = true := by
  cases v <;> cases x <;> simp_all [vle, valLt0] <;> linarith

theorem valLt0_vminSkip {l : List Val} {x : Val} (hx : x ∈ l)
    (hlt : valLt0 x = true) : valLt0 (vminSkip l) = true := by
  have hnn : x.isNan = false := by cases x <;> simp_all [valLt0, Val.isNan]
  exact valLt0_of_vle (vminSkip_le l x hx hnn) hlt

theorem not_valLt0_entry {l : List Val} {x : Val}
    (h : valLt0 (vminSkip l) = false) (hx : x ∈ l) : valLt0 x = false := by
  by_contra hc
  rw [valLt0_vminSkip hx (Bool.of_not_eq_false hc)] at h
  cases h

theorem valLt0_vminSkip_false {l : List Val} (h : ∀ v ∈ l, valLt0 v = false) :
    valLt0 (vminSkip l) = false := by
  rcases vminSkip_mem l with he | he
  · rw [he]; rfl
  · exact h _ he

theorem init_le_foldl_max (t : List ℚ) (i : ℚ) : i ≤ t.foldl max i := by
  induction t generalizing i with
  | nil => exact le_refl i
  | cons a t ih => exact le_trans (le_max_left i a) (ih (max i a))

theorem le_foldl_max (t : List ℚ) (i q : ℚ) (h : q = i ∨ q ∈ t) :
    q ≤ t.foldl max i := by
  induction t generalizing i with
  | nil =>
    rcases h with rfl | hm
    · exact le_refl q
    · cases hm
  | cons a t ih =>
    rw [List.foldl_cons]
    rcases h with rfl | hm
    · exact le_trans (le_max_left q a) (init_le_foldl_max t (max q a))
    · rcases List.mem_cons.mp hm with rfl | hm2
      · exact le_trans (le_max_right i q) (init_le_foldl_max t (max i q))
      · exact ih (max i a) (Or.inr hm2)

theorem le_qmaxL {l : List ℚ} {q : ℚ} (h : q ∈ l) : q ≤ qmaxL l := by
  cases l with
  | nil => cases h
  | cons a t =>
    rcases List.mem_cons.mp h with rfl | hm
    · exact le_foldl_max t q q (Or.inl rfl)
    · exact le_foldl_max t a q (Or.inr hm)

theorem foldl_max_neg (t : List ℚ) (i : ℚ) (hi : i < 0) (ht : ∀ q ∈ t, q < 0) :
    t.foldl max i < 0 := by
  induction t generalizing i with
  | nil => exact hi
  | cons a t ih =>
    rw [List.foldl_cons]
    exact ih (max i a) (max_lt hi (ht a (List.mem_cons_self a t)))
      (fun q hq => ht q (List.mem_cons_of_mem a hq))

theorem qmaxL_neg {l : List ℚ} (h : ∀ q ∈ l, q < 0) (hne : l ≠ []) :
    qmaxL l < 0 := by
  cases l with
  | nil => exact absurd rfl hne
  | cons a t =>
    exact foldl_max_neg t a (h a (List.mem_cons_self a t))
      (fun q hq => h q (List.mem_cons_of_mem a hq))

theorem foldl_max_self (t : List ℚ) (c : ℚ) (h : ∀ q ∈ t, q = c) :
    t.foldl max c = c := by
  induction t with
  | nil => rfl
  | cons a t ih =>
    have ha : a = c := h a (List.mem_cons_self a t)
    rw [List.foldl_cons, ha, max_self]
    exact ih (fun q hq => h q (List.mem_cons_of_mem a hq))

theorem qmaxL_replicate (n : Nat) (c : ℚ) (h : n ≠ 0) :
    qmaxL (List.replicate n c) = c := by
  cases n with
  | zero => exact absurd rfl h
  | succ m =>
    rw [List.replicate_succ]
    exact foldl_max_self _ c (fun q hq => List.eq_of_mem_replicate hq)

theorem prodL_pos {l : List Nat} (h : ∀ s ∈ l, 0 < s) : 0 < prodL l := by
  induction l with
  | nil => exact Nat.one_pos
  | cons a t ih =>
    exact Nat.mul_pos (h a (List.mem_cons_self a t))
      (ih (fun s hs => h s (List.mem_cons_of_mem a hs)))

theorem vals_normW (w : DArr ℚ) :
    vals (normW w) = (vals w).map (fun q => divQ q (qmaxL (vals w))) := by
  simp only [vals, normW, List.map_map]
  rfl

theorem vals_const {α : Type} (x : DArr α) (c : α) (h : x.data = fun _ => c) :
    vals x = List.replicate (prodL x.shape) c := by
  simp [vals, h]

theorem vals_length {α : Type} (x : DArr α) : (vals x).length = prodL x.shape := by
  simp [vals]

theorem vals_ne_nil {α : Type} (x : DArr α) (h : 0 < prodL x.shape) :
    vals x ≠ [] := by
  intro hc
  rw [← List.length_eq_zero] at hc
  rw [vals_length] at hc
  omega

theorem posOf_cons (d x : String) (t : List String) :
    posOf (d :: t) x = if d == x then 0 else posOf t x + 1 := by
  simp [posOf, List.findIdx_cons, Bool.cond_eq_ite]

theorem posOf_lt_of_mem {l : List String} {x : String} (h : x ∈ l) :
    posOf l x < l.length := by
  induction l with
  | nil => cases h
  | cons d t ih =>
    rw [posOf_cons]
    by_cases hd : d == x
    · simp [hd]
    · rcases List.mem_cons.mp h with rfl | hm
      · simp at hd
      · simp only [hd, if_false, List.length_cons]
        exact Nat.succ_lt_succ (ih hm)

theorem getD_posOf {l : List String} {x : String} (h : x ∈ l) (y : String) :
    l.getD (posOf l x) y = x := by
  induction l with
  | nil => cases h
  | cons d t ih =>
    rw [posOf_cons]
    by_cases hd : d == x
    · have : d = x := by simpa using hd
      simp [hd, this]
    · rcases List.mem_cons.mp h with rfl | hm
      · simp at hd
      · simp only [hd, if_false]
        exact ih hm

theorem posOf_append_right {l1 l2 : List String} {x : String} (h : x ∉ l1) :
    posOf (l1 ++ l2) x = l1.length + posOf l2 x := by
  induction l1 with
  | nil => simp
  | cons d t ih =>
    have hd : (d == x) = false := by
      simp only [beq_eq_false_iff_ne, ne_eq]
      intro hc
      exact h (hc ▸ List.mem_cons_self d t)
    rw [List.cons_append, posOf_cons, hd, if_neg (by simp),
      ih (fun hm => h (List.mem_cons_of_mem d hm))]
    simp [List.length_cons]
    omega

theorem posOf_append_nodup (pre : List String) (x : String) (suf : List String)
    (h : (pre ++ x :: suf).Nodup) : posOf (pre ++ x :: suf) x = pre.length := by
  have hx : x ∉ pre := by
    intro hc
    rcases List.nodup_append.mp h with ⟨-, -, hdis⟩
    exact hdis hc (List.mem_cons_self x suf)
  rw [posOf_append_right hx, posOf_cons, beq_self_eq_true, if_pos rfl]
  omega

theorem getD_map_of_lt {α β : Type} (f : α → β) (l : List α) (i : Nat)
    (h : i < l.length) (y : β) (x : α) : (l.map f).getD i y = f (l.getD i x) := by
  induction l generalizing i with
  | nil => simp at h
  | cons a t ih =>
    cases i with
    | zero => rfl
    | succ j =>
      simp only [List.map_cons, List.getD_cons_succ]
      exact ih j (by simpa using h)

theorem zip_map_fst_snd {α β : Type} (l : List (α × β)) :
    (l.map (·.1)).zip (l.map (·.2)) = l := by
  induction l with
  | nil => rfl
  | cons p t ih => simp [ih]

theorem map_fst_zip_eq {α β : Type} (l : List α) (m : List β)
    (h : l.length = m.length) : (l.zip m).map (·.1) = l := by
  induction l generalizing m with
  | nil => rfl
  | cons a t ih =>
    cases m with
    | nil => simp at h
    | cons b s =>
      simp only [List.zip_cons_cons, List.map_cons]
      rw [ih s (by simpa using h)]

theorem zip_append_eq {α β : Type} (l1 l2 : List α) (m1 m2 : List β)
    (h : l1.length = m1.length) :
    (l1 ++ l2).zip (m1 ++ m2) = l1.zip m1 ++ l2.zip m2 := by
  induction l1 generalizing m1 with
  | nil =>
    cases m1 with
    | nil => rfl
    | cons b s => simp at h
  | cons a t ih =>
    cases m1 with
    | nil => simp at h
    | cons b s =>
      simp only [List.cons_append, List.zip_cons_cons]
      rw [ih s (by simpa using h)]

theorem drop_eq_getD_cons {α : Type} (l : List α) (n : Nat) (h : n < l.length)
    (y : α) : l.drop n = l.getD n y :: l.drop (n + 1) := by
  induction l generalizing n with
  | nil => simp at h
  | cons a t ih =>
    cases n with
    | zero => rfl
    | succ j =>
      simp only [List.drop_succ_cons, List.getD_cons_succ]
      exact ih j (by simpa using h)

theorem dlook_filter (l : List (String × Nat)) (q : String × Nat → Bool)
    (k : String) (hq : ∀ v : Nat, q (k, v) = true) :
    dlook (l.filter q) k = dlook l k := by
  induction l with
  | nil => rfl
  | cons p t ih =>
    rw [List.filter_cons]
    by_cases hpk : (p.1 == k) = true
    · have hpe : p.1 = k := by simpa using hpk
      have hqp : q p = true := by
        have hpeta : p = (k, p.2) := by
          cases p
          simp_all
        rw [hpeta]
        exact hq p.2
      rw [if_pos hqp]
      simp [dlook, hpk, ih]
    · by_cases hqp : q p = true
      · rw [if_pos hqp]
        simp [dlook, hpk, ih]
      · rw [if_neg hqp]
        simp [dlook, hpk, ih]

theorem dlook_zip (dims : List String) (shape : List Nat) (i : String)
    (hmem : i ∈ dims) (hlen : dims.length = shape.length) :
    dlook (dims.zip shape) i = some (shape.getD (posOf dims i) 0) := by
  induction dims generalizing shape with
  | nil => cases hmem
  | cons d t ih =>
    cases shape with
    | nil => simp at hlen
    | cons s ss =>
      rw [List.zip_cons_cons, posOf_cons]
      by_cases hd : (d == i) = true
      · simp [dlook, hd]
      · have hm : i ∈ t := by
          rcases List.mem_cons.mp hmem with rfl | hm2
          · simp at hd
          · exact hm2
        have hne : (d == i) = false := by simpa using hd
        simp [dlook, hne, ih ss hm (by simpa using hlen)]

theorem dlook_some_mem {l : List (String × Nat)} {k : String} {v : Nat}
    (h : dlook l k = some v) : (k, v) ∈ l := by
  induction l with
  | nil => cases h
  | cons p t ih =>
    rw [dlook] at h
    by_cases hpk : (p.1 == k) = true
    · have hpe : p.1 = k := by simpa using hpk
      rw [if_pos hpk] at h
      have hv : p.2 = v := by simpa using h
      have hp : p = (k, v) := by
        cases p
        simp_all
      rw [← hp]
      exact List.mem_cons_self p t
    · rw [if_neg hpk] at h
      exact List.mem_cons_of_mem p (ih h)

theorem dlook_self_of_nodup {l : List (String × Nat)}
    (h : (l.map (·.1)).Nodup) : ∀ p ∈ l, dlook l p.1 = some p.2 := by
  induction l with
  | nil => intro p hp; cases hp
  | cons q t ih =>
    intro p hp
    rcases List.mem_cons.mp hp with rfl | hm
    · simp [dlook]
    · have hq1 : q.1 ∉ t.map (·.1) := (List.nodup_cons.mp h).1
      have hne : (q.1 == p.1) = false := by
        simp only [beq_eq_false_iff_ne, ne_eq]
        intro hc
        exact hq1 (hc ▸ List.mem_map_of_mem (·.1) hm)
      rw [dlook, if_neg (by simp [hne])]
      exact ih (List.nodup_cons.mp h).2 p hm

theorem dictEq_refl {l : List (String × Nat)} (h : (l.map (·.1)).Nodup) :
    dictEq l l = true := by
  have hall : ∀ p ∈ l, (dlook l p.1 == some p.2) = true := by
    intro p hp
    simp [dlook_self_of_nodup h p hp]
  unfold dictEq
  rw [List.all_eq_true.mpr hall]
  rfl

theorem map_posOf_getD_eq (dims : List String) (shape : List Nat)
    (h : dims.Nodup) (hlen : dims.length = shape.length) :
    dims.map (fun x => shape.getD (posOf dims x) 0) = shape := by
  induction dims generalizing shape with
  | nil =>
    cases shape with
    | nil => rfl
    | cons s ss => simp at hlen
  | cons d t ih =>
    cases shape with
    | nil => simp at hlen
    | cons s ss =>
      have hd : d ∉ t := (List.nodup_cons.mp h).1
      have ht : t.Nodup := (List.nodup_cons.mp h).2
      simp only [List.map_cons]
      have hhead : (s :: ss).getD (posOf (d :: t) d) 0 = s := by
        rw [posOf_cons, beq_self_eq_true, if_pos rfl]
        rfl
      have htail : t.map (fun x => (s :: ss).getD (posOf (d :: t) x) 0) =
          t.map (fun x => ss.getD (posOf t x) 0) := by
        apply List.map_congr_left
        intro x hx
        have hne : (d == x) = false := by
          simp only [beq_eq_false_iff_ne, ne_eq]
          intro hc
          exact hd (hc ▸ hx)
        rw [posOf_cons, hne, if_neg (by simp), List.getD_cons_succ]
      rw [hhead, htail, ih ss ht (by simpa using hlen)]

theorem zip_filter_fst (dims : List String) (shape : List Nat) (p : String → Bool)
    (h : dims.Nodup) (hlen : dims.length = shape.length) :
    (dims.zip shape).filter (fun q => p q.1) =
      (dims.filter p).zip
        ((dims.filter p).map (fun x => shape.getD (posOf dims x) 0)) := by
  induction dims generalizing shape with
  | nil =>
    cases shape with
    | nil => rfl
    | cons s ss => simp at hlen
  | cons d t ih =>
    cases shape with
    | nil => simp at hlen
    | cons s ss =>
      have hd : d ∉ t := (List.nodup_cons.mp h).1
      have ht : t.Nodup := (List.nodup_cons.mp h).2
      have hlen2 : t.length = ss.length := by simpa using hlen
      have hshift : ∀ m : List String, (∀ x ∈ m, x ∈ t) →
          m.map (fun x => (s :: ss).getD (posOf (d :: t) x) 0) =
            m.map (fun x => ss.getD (posOf t x) 0) := by
        intro m hm
        apply List.map_congr_left
        intro x hx
        have hne : (d == x) = false := by
          simp only [beq_eq_false_iff_ne, ne_eq]
          intro hc
          exact hd (hc ▸ hm x hx)
        rw [posOf_cons, hne, if_neg (by simp), List.getD_cons_succ]
      rw [List.zip_cons_cons, List.filter_cons, List.filter_cons]
      by_cases hp : p d = true
      · rw [if_pos (by simpa using hp), if_pos (by simpa using hp)]
        simp only [List.map_cons]
        have hhead : (s :: ss).getD (posOf (d :: t) d) 0 = s := by
          rw [posOf_cons, beq_self_eq_true, if_pos rfl]
          rfl
        rw [hhead, List.zip_cons_cons,
          hshift (t.filter p) (fun x hx => List.mem_of_mem_filter hx),
          ih ss ht hlen2]
      · rw [if_neg (by simpa using hp), if_neg (by simpa using hp),
          hshift (t.filter p) (fun x hx => List.mem_of_mem_filter hx),
          ih ss ht hlen2]

theorem sizesD_isel0 {α : Type} (x : DArr α) (drop : List String) :
    sizesD (isel0 x drop) = (sizesD x).filter (fun p => !drop.contains p.1) := by
  unfold isel0
  exact zip_map_fst_snd _

theorem sizesD_normW (w : DArr ℚ) : sizesD (normW w) = sizesD w := rfl

theorem sizesD_stackDims {α : Type} (x : DArr α) (nd : String) (sdims : List String) :
    sizesD (stackDims x nd sdims) =
      (sizesD x).filter (fun p => !sdims.contains p.1) ++
        [(nd, prodL (sdims.map (fun d => sizeIn x d)))] := by
  unfold stackDims
  rw [sizesD, zip_append_eq _ _ _ _ (by simp)]
  rw [zip_map_fst_snd]
  rfl

theorem unflatten_length (shape : List Nat) (n : Nat) :
    (unflattenIdx shape n).length = shape.length := by
  induction shape generalizing n with
  | nil => rfl
  | cons s rest ih => simp [unflattenIdx, ih]

theorem buildIdx_exact (suf : List String) (pre : List String) (sIdx outer : List Nat)
    (h : (pre ++ suf).Nodup) (hlen : sIdx.length = (pre ++ suf).length) :
    buildIdx suf (pre ++ suf) sIdx outer = sIdx.drop pre.length := by
  induction suf generalizing pre with
  | nil =>
    have hle : sIdx.length = pre.length := by simpa using hlen
    rw [List.drop_eq_nil_of_le (le_of_eq hle)]
    rfl
  | cons d suf2 ih =>
    have hcont : ((pre ++ d :: suf2).contains d) = true := by
      simp [List.contains, List.elem_iff]
    have hpos : posOf (pre ++ d :: suf2) d = pre.length := posOf_append_nodup pre d suf2 h
    have hlt : pre.length < sIdx.length := by
      rw [hlen, List.length_append, List.length_cons]
      omega
    have hre : pre ++ d :: suf2 = (pre ++ [d]) ++ suf2 := by
      rw [List.append_assoc, List.singleton_append]
    have ih2 := ih (pre ++ [d]) (by rw [← hre]; exact h) (by rw [← hre]; exact hlen)
    rw [← hre] at ih2
    rw [buildIdx, if_pos hcont, hpos]
    rw [drop_eq_getD_cons sIdx pre.length hlt 0]
    congr 1
    rw [ih2, List.length_append, List.length_singleton]

theorem sizeIn_pos {α : Type} (x : DArr α) (d : String) (hmem : d ∈ x.dims)
    (hlen : x.shape.length = x.dims.length) (hpos : ∀ s ∈ x.shape, 0 < s) :
    0 < sizeIn x d := by
  unfold sizeIn
  have hlt : posOf x.dims d < x.shape.length := by
    rw [hlen]
    exact posOf_lt_of_mem hmem
  rw [List.getD_eq_getElem x.shape 0 hlt]
  exact hpos _ (List.getElem_mem hlt)

theorem isPrefixOf_self (l : List Char) : l.isPrefixOf l = true := by
  induction l with
  | nil => rfl
  | cons a t ih => simp [List.isPrefixOf, ih]

theorem subStr_refl (s : String) : subStrOf s s = true := by
  unfold subStrOf
  cases hd : s.data with
  | nil => rfl
  | cons c t => simp [subChars, isPrefixOf_self]

theorem vals_stack_exact {α : Type} (x : DArr α) (nd : String) (sdims : List String)
    (hdims : x.dims = sdims) (hnodup : sdims.Nodup)
    (hlen : x.shape.length = sdims.length) :
    vals (stackDims x nd sdims) = vals x := by
  have hkeep : (sizesD x).filter (fun p => !sdims.contains p.1) = [] := by
    rw [List.filter_eq_nil]
    rintro ⟨p1, p2⟩ hp
    have hp1 : p1 ∈ x.dims := (List.of_mem_zip hp).1
    simp [List.contains, List.elem_iff, hdims ▸ hp1]
  have hshape : sdims.map (fun d => sizeIn x d) = x.shape := by
    unfold sizeIn
    rw [hdims]
    exact map_posOf_getD_eq sdims x.shape hnodup hlen.symm
  unfold vals stackDims
  simp only [hkeep, hshape, List.map_nil, List.nil_append, List.length_nil]
  have hP : prodL [prodL x.shape] = prodL x.shape := by simp [prodL]
  rw [hP]
  apply List.map_congr_left
  intro n hn
  have hnP : n < prodL x.shape := List.mem_range.mp hn
  have hu : unflattenIdx [prodL x.shape] n = [n % prodL x.shape] := by
    simp [unflattenIdx, prodL]
  have hmod : n % prodL x.shape = n := Nat.mod_eq_of_lt hnP
  rw [hu, hmod]
  have hb := buildIdx_exact sdims [] (unflattenIdx x.shape n) []
    (by simpa using hnodup) (by rw [unflatten_length]; simp [hlen])
  simp only [List.nil_append, List.length_nil, List.drop_zero] at hb
  simp only [List.getD_cons_zero, List.take_zero]
  rw [hdims, hb]

/-! ## Behaviour of the weight preprocessor -/

theorem preprocess_neg (a : DArr ℚ) (dimArg : List String) (nd : NewDim)
    (w : DArr ℚ) (hneg : ∃ q ∈ vals w, q < 0) (hmax : 0 ≤ qmaxL (vals w)) :
    preprocess_weights a dimArg nd (some w) = .error .negWeight := by
  obtain ⟨q0, hq0m, hq0⟩ := hneg
  have hv : divQ q0 (qmaxL (vals w)) ∈ vals (normW w) := by
    rw [vals_normW]
    exact List.mem_map_of_mem _ hq0m
  have hlt : valLt0 (divQ q0 (qmaxL (vals w))) = true := by
    unfold divQ
    rcases eq_or_lt_of_le hmax with hm0 | hmpos
    · rw [if_pos hm0.symm, if_pos hq0]
      rfl
    · rw [if_neg (by exact ne_of_gt hmpos), ratDiv_eq_div]
      simp [valLt0, div_neg_of_neg_of_pos hq0 hmpos]
  have hmin : valLt0 (vminSkip (vals (normW w))) = true := valLt0_vminSkip hv hlt
  unfold preprocess_weights
  simp [hmin]

theorem preprocess_mismatch (a : DArr ℚ) (dimArg : List String) (nd : NewDim)
    (w : DArr ℚ) (hmin : valLt0 (vminSkip (vals (normW w))) = false)
    (hmis : dictEq (sizesD w) (reqSizes a nd) = false) :
    preprocess_weights a dimArg nd (some w) =
      .error (.dimMismatch dimArg (sizesD w) (reqSizes a nd)) := by
  unfold preprocess_weights
  simp [hmin, hmis, sizesD_normW]

theorem preprocess_ok_min {a : DArr ℚ} {dimArg : List String} {nd : NewDim}
    {w : DArr ℚ} (h : exOk (preprocess_weights a dimArg nd (some w)) = true) :
    valLt0 (vminSkip (vals (normW w))) = false := by
  by_contra hc
  have hmin := Bool.of_not_eq_false hc
  unfold preprocess_weights at h
  simp [hmin] at h
  exact absurd h (by simp [exOk])

theorem preprocess_not_negErr (a : DArr ℚ) (dimArg : List String) (nd : NewDim)
    (w : DArr ℚ) (hmin : valLt0 (vminSkip (vals (normW w))) = false) :
    isNegErr (preprocess_weights a dimArg nd (some w)) = false := by
  unfold preprocess_weights
  simp only [hmin, Bool.false_eq_true, if_false]
  split
  · rfl
  · split
    · rfl
    · rfl

theorem mem_zip_map {α β : Type} {l : List α} {f : α → β} {k : α} {v : β}
    (h : (k, v) ∈ l.zip (l.map f)) : v = f k := by
  induction l with
  | nil => cases h
  | cons a t ih =>
    rcases List.mem_cons.mp h with he | hm
    · have h1 : k = a ∧ v = f a := by simpa [Prod.ext_iff] using he
      rw [h1.2, h1.1]
    · exact ih hm

theorem dlook_zip_map (l : List String) (f : String → Nat) (k : String)
    (hk : k ∈ l) : dlook (l.zip (l.map f)) k = some (f k) := by
  induction l with
  | nil => cases hk
  | cons a t ih =>
    show dlook ((a, f a) :: t.zip (t.map f)) k = some (f k)
    rw [dlook]
    by_cases ha : (a == k) = true
    · have hak : a = k := by simpa using ha
      rw [if_pos ha, hak]
    · rw [if_neg ha]
      refine ih ?_
      rcases List.mem_cons.mp hk with rfl | hm
      · simp at ha
      · exact hm

theorem dictEq_true_of {X Y : List (String × Nat)}
    (h1 : ∀ p ∈ X, dlook Y p.1 = some p.2)
    (h2 : ∀ p ∈ Y, dlook X p.1 = some p.2) : dictEq X Y = true := by
  unfold dictEq
  rw [List.all_eq_true.mpr (fun p hp => by simp [h1 p hp]),
    List.all_eq_true.mpr (fun p hp => by simp [h2 p hp])]
  rfl

theorem nodup_subset_singleton {l : List String} {s : String} (hn : l.Nodup)
    (hall : ∀ i ∈ l, i = s) (hs : s ∈ l) : l = [s] := by
  cases l with
  | nil => cases hs
  | cons a t =>
    have ha : a = s := hall a (List.mem_cons_self a t)
    have ht : t = [] := by
      cases t with
      | nil => rfl
      | cons b u =>
        have hb : b = s := hall b (List.mem_cons_of_mem a (List.mem_cons_self b u))
        have hna : a ∉ b :: u := (List.nodup_cons.mp hn).1
        exact absurd (show a ∈ b :: u by
          rw [ha, ← hb]
          exact List.mem_cons_self b u) hna
    rw [ha, ht]

theorem preprocess_ones (a : DArr ℚ) (dimArg d : List String) (nd : NewDim)
    (hsub : ∀ x ∈ d, x ∈ a.dims)
    (h2 : a.dims.Nodup)
    (h3 : a.shape.length = a.dims.length)
    (h4 : ∀ s ∈ a.shape, 0 < s)
    (hpred : ∀ i ∈ a.dims, inNewDim i nd = d.contains i) :
    preprocess_weights a dimArg nd (some (onesOver a d)) = .ok (onesLike a) ∨
    ((∀ i ∈ a.dims, i ∈ d) ∧
      preprocess_weights a dimArg nd (some (onesOver a d)) =
        .ok ⟨d, d.map (fun x => sizeIn a x), fun _ => Val.fin 1⟩) := by
  set w := onesOver a d with hw
  have hshp_pos : ∀ s ∈ d.map (fun x => sizeIn a x), 0 < s := by
    intro s hs
    obtain ⟨x, hx, rfl⟩ := List.mem_map.mp hs
    exact sizeIn_pos a x (hsub x hx) h3 h4
  have hP : 0 < prodL w.shape := prodL_pos hshp_pos
  have hvals : vals w = List.replicate (prodL w.shape) 1 := vals_const w 1 rfl
  have hm : qmaxL (vals w) = 1 := by
    rw [hvals]
    exact qmaxL_replicate _ 1 (by omega)
  have hd11 : divQ 1 1 = .fin 1 := by
    rw [divQ, if_neg one_ne_zero, ratDiv_eq_div]
    norm_num
  have hnormdata : (normW w).data = fun _ => Val.fin 1 := by
    funext i
    show divQ (w.data i) (qmaxL (vals w)) = .fin 1
    rw [hm]
    exact hd11
  have hnormvals : vals (normW w) = List.replicate (prodL w.shape) (.fin 1) :=
    vals_const (normW w) (.fin 1) hnormdata
  have hmin : valLt0 (vminSkip (vals (normW w))) = false := by
    apply valLt0_vminSkip_false
    intro v hv
    rw [hnormvals] at hv
    rw [List.eq_of_mem_replicate hv]
    rfl
  have hmemdrop : ∀ i ∈ a.dims, (dropDimsOf a nd).contains i = !d.contains i := by
    intro i hi
    by_cases hdc : d.contains i = true
    · have hnm : i ∉ dropDimsOf a nd := by
        intro hc
        have hpc := (List.mem_filter.mp hc).2
        rw [hpred i hi, hdc] at hpc
        simp at hpc
      have hdm : i ∈ d := by simpa [List.contains, List.elem_iff] using hdc
      simp [List.contains, List.elem_iff, hnm, hdc, hdm]
    · have hdc2 : d.contains i = false := by simpa using hdc
      have hmm : i ∈ dropDimsOf a nd := by
        apply List.mem_filter.mpr
        refine ⟨hi, ?_⟩
        rw [hpred i hi, hdc2]
        rfl
      have hdm2 : i ∉ d := by
        intro hc
        rw [(by simpa [List.contains, List.elem_iff] using hc :
          d.contains i = true)] at hdc2
        cases hdc2
      simp [List.contains, List.elem_iff, hmm, hdc2, hdm2]
  have hreq_struct : reqSizes a nd = (sizesD a).filter (fun p => d.contains p.1) := by
    rw [reqSizes, sizesD_isel0]
    apply List.filter_congr
    rintro ⟨p1, p2⟩ hp
    have hp1 : p1 ∈ a.dims := (List.of_mem_zip hp).1
    show (!(dropDimsOf a nd).contains p1) = d.contains p1
    rw [hmemdrop p1 hp1, Bool.not_not]
  have hkeysa : (sizesD a).map (·.1) = a.dims := map_fst_zip_eq a.dims a.shape h3.symm
  have hkeysw : ∀ p ∈ sizesD w, p.1 ∈ d ∧ p.2 = sizeIn a p.1 := by
    rintro ⟨p1, p2⟩ hp
    have hp2 : (p1, p2) ∈ d.zip (d.map (fun x => sizeIn a x)) := hp
    exact ⟨(List.of_mem_zip hp2).1, mem_zip_map hp2⟩
  have hlookw : ∀ k ∈ d, dlook (sizesD w) k = some (sizeIn a k) := by
    intro k hk
    show dlook (d.zip (d.map (fun x => sizeIn a x))) k = some (sizeIn a k)
    exact dlook_zip_map d _ k hk
  have hlookreq : ∀ k ∈ d, dlook (reqSizes a nd) k = some (sizeIn a k) := by
    intro k hk
    have hck : d.contains k = true := by
      simpa [List.contains, List.elem_iff] using hk
    rw [hreq_struct, dlook_filter _ _ k (fun v => hck)]
    exact dlook_zip a.dims a.shape k (hsub k hk) h3.symm
  have hdicteq : dictEq (sizesD w) (reqSizes a nd) = true := by
    apply dictEq_true_of
    · intro p hp
      obtain ⟨hp1, hp2⟩ := hkeysw p hp
      rw [hlookreq p.1 hp1, hp2]
    · rintro ⟨p1, p2⟩ hp
      rw [hreq_struct] at hp
      have hmem := List.mem_of_mem_filter hp
      have hpf : d.contains p1 = true := by
        simpa using (List.mem_filter.mp hp).2
      have hp1d : p1 ∈ d := by simpa [List.contains, List.elem_iff] using hpf
      have hp1a : p1 ∈ a.dims := (List.of_mem_zip hmem).1
      have hv1 : dlook (sizesD a) p1 = some p2 :=
        dlook_self_of_nodup (by rw [hkeysa]; exact h2) (p1, p2) hmem
      have hv2 : dlook (sizesD a) p1 = some (sizeIn a p1) :=
        dlook_zip a.dims a.shape p1 hp1a h3.symm
      have hp2v : p2 = sizeIn a p1 := by
        rw [hv1] at hv2
        exact Option.some.inj hv2
      rw [hlookw p1 hp1d, hp2v]
  by_cases hC : dictEq (sizesD w) (sizesD a) = true
  · right
    have hall : ∀ i ∈ a.dims, i ∈ d := by
      intro i hi
      have hif : i ∈ (sizesD a).map (·.1) := by
        rw [hkeysa]
        exact hi
      obtain ⟨p, hp, hp1⟩ := List.mem_map.mp hif
      have hlook := (List.all_eq_true.mp (Bool.and_elim_right hC)) p hp
      have hlk : dlook (sizesD w) p.1 = some p.2 := by simpa using hlook
      have hpm : (p.1, p.2) ∈ sizesD w := dlook_some_mem hlk
      have hmk : p.1 ∈ (sizesD w).map (·.1) := List.mem_map_of_mem _ hpm
      have hmk2 : p.1 ∈ d := by
        obtain ⟨q, hq, hq1⟩ := List.mem_map.mp hmk
        exact hq1 ▸ (hkeysw q hq).1
      exact hp1 ▸ hmk2
    refine ⟨hall, ?_⟩
    have hfinal : normW w =
        (⟨d, d.map (fun x => sizeIn a x), fun _ => Val.fin 1⟩ : DArr Val) := by
      apply DArr.ext
      · rfl
      · rfl
      · exact hnormdata
    have c1 : ¬ (valLt0 (vminSkip (vals (normW w))) = true) := by
      rw [hmin]
      simp
    have c2 : ¬ (dictEq (sizesD (normW w)) (reqSizes a nd) = false) := by
      rw [sizesD_normW, hdicteq]
      simp
    have c3 : ¬ (dictEq (sizesD (normW w)) (sizesD a) = false) := by
      rw [sizesD_normW, hC]
      simp
    simp only [preprocess_weights]
    rw [if_neg c1, if_neg c2, if_neg c3, hfinal]
  · left
    have hCf : dictEq (sizesD w) (sizesD a) = false := by simpa using hC
    have hextra : (sizesD (normW w)).filter (fun p => !a.dims.contains p.1) = [] := by
      rw [sizesD_normW, List.filter_eq_nil]
      rintro ⟨p1, p2⟩ hp
      have hp2 : (p1, p2) ∈ d.zip (d.map (fun x => sizeIn a x)) := hp
      have hp1 : p1 ∈ d := (List.of_mem_zip hp2).1
      simp [List.contains, List.elem_iff, hsub p1 hp1]
    have hfinal : broadcastTo a (normW w) = onesLike a := by
      apply DArr.ext
      · show a.dims ++ ((sizesD (normW w)).filter
          (fun p => !a.dims.contains p.1)).map (·.1) = a.dims
        rw [hextra]
        simp
      · show a.shape ++ ((sizesD (normW w)).filter
          (fun p => !a.dims.contains p.1)).map (·.2) = a.shape
        rw [hextra]
        simp
      · funext idx
        show (normW w).data _ = (onesLike a).data idx
        rw [hnormdata]
        rfl
    have c1 : ¬ (valLt0 (vminSkip (vals (normW w))) = true) := by
      rw [hmin]
      simp
    have c2 : ¬ (dictEq (sizesD (normW w)) (reqSizes a nd) = false) := by
      rw [sizesD_normW, hdicteq]
      simp
    have c3 : dictEq (sizesD (normW w)) (sizesD a) = false := by
      rw [sizesD_normW]
      exact hCf
    simp only [preprocess_weights]
    rw [if_neg c1, if_neg c2, if_pos c3, hfinal]

/-! ## Claim theorems -/

/-- C5: the dimension normalizer wraps a single string into a one-element
list, returns the axis tuple `(-1, -2, ..., -len(dim))` addressing the
trailing axes with the innermost reduction dimension at axis `-1`, and (as
a total function) never raises. -/
theorem preprocess_dims_contract :
    (∀ s : String, preprocess_dims (.str s) = ([s], [-1])) ∧
    (∀ xs : List String, preprocess_dims (.listd xs) =
      (xs, (List.range xs.length).map (fun k => -1 - (k : Int)))) := by
  constructor
  · intro s
    have h : rangeStepNeg1 (-1) (-(1 : Int) - 1) = [-1] := by decide
    show ([s], rangeStepNeg1 (-1) (-(1 : Int) - 1)) = ([s], [-1])
    rw [h]
  · intro xs
    have h : ((-1 : Int) - (-(xs.length : Int) - 1)).toNat = xs.length := by omega
    simp only [preprocess_dims, rangeStepNeg1, h]

/-- C7: the error-family metrics perform no stacking: the input arrays are
passed unchanged, the weight preprocessor receives the original
dimension-name list as `new_dim`, and the whole axis tuple from the
dimension normalizer is passed to the reducer. -/
theorem error_family_no_stacking (a b : DArr ℚ) (dimIn : DimInput)
    (w : Option (DArr ℚ)) :
    (rmse a b dimIn w =
      Except.map (fun wts => ⟨.rmseK, a, b, wts,
          [(preprocess_dims dimIn).1, (preprocess_dims dimIn).1,
            (preprocess_dims dimIn).1], .many (preprocess_dims dimIn).2⟩)
        (preprocess_weights a (preprocess_dims dimIn).1
          (.listd (preprocess_dims dimIn).1) w)) ∧
    (mse a b dimIn w =
      Except.map (fun wts => ⟨.mseK, a, b, wts,
          [(preprocess_dims dimIn).1, (preprocess_dims dimIn).1,
            (preprocess_dims dimIn).1], .many (preprocess_dims dimIn).2⟩)
        (preprocess_weights a (preprocess_dims dimIn).1
          (.listd (preprocess_dims dimIn).1) w)) ∧
    (mae a b dimIn w =
      Except.map (fun wts => ⟨.maeK, a, b, wts,
          [(preprocess_dims dimIn).1, (preprocess_dims dimIn).1,
            (preprocess_dims dimIn).1], .many (preprocess_dims dimIn).2⟩)
        (preprocess_weights a (preprocess_dims dimIn).1
          (.listd (preprocess_dims dimIn).1) w)) :=
  ⟨rfl, rfl, rfl⟩

/-- C8: with `weights=None` the weight preprocessor immediately returns an
all-ones array with `a`'s shape; none of the validation steps run on this
path, so it cannot raise. -/
theorem none_weights_ones (a : DArr ℚ) (dimArg : List String) (nd : NewDim) :
    preprocess_weights a dimArg nd none = .ok (onesLike a) := rfl

/-- C10: with a string-valued `new_dim`, the dropped dimensions are chosen
by substring membership, so a dimension of `a` whose name is a substring of
`new_dim` is not collapsed and its size appears in the required weights
size mapping. -/
theorem substring_drop_dims (a : DArr ℚ) (s i : String) (hmem : i ∈ a.dims)
    (hsub : subStrOf i s = true) (hlen : a.shape.length = a.dims.length) :
    i ∉ dropDimsOf a (.str s) ∧
    dlook (reqSizes a (.str s)) i = some (sizeIn a i) := by
  have hnd : i ∉ dropDimsOf a (.str s) := by
    intro hc
    have hpc := (List.mem_filter.mp hc).2
    simp [inNewDim, hsub] at hpc
  refine ⟨hnd, ?_⟩
  rw [reqSizes, sizesD_isel0,
    dlook_filter _ _ i (fun v => by simp [List.contains, List.elem_iff, hnd])]
  show dlook (a.dims.zip a.shape) i = some (sizeIn a i)
  exact dlook_zip a.dims a.shape i hmem hlen.symm

/-- C1 counterexample: `mae` called with the all-negative weights
`[-1, -2]` (which contain a negative entry) raises no error at all —
normalizing by the negative maximum flips every sign, so the minimum check
passes and the claim "any negative entry raises the negative-weight error"
fails as stated. -/
theorem neg_weight_error_cex :
    exOk (mae aT aT (.str "t") (some wAllNeg)) = true ∧
    (∃ q ∈ vals wAllNeg, q < 0) := by
  constructor
  · decide
  · decide

/-- C1 amended: for every metric function and every weights array over the
reduction dimension(s) that contains at least one negative entry and whose
maximum is nonnegative (equivalently: not all entries are negative), the
call raises the negative-weight validation error. -/
theorem neg_weight_error_amended (k : KernelId) (a b : DArr ℚ)
    (dimIn : DimInput) (w : DArr ℚ)
    (hdims : w.dims = (preprocess_dims dimIn).1)
    (hnodup : (preprocess_dims dimIn).1.Nodup)
    (hlen : w.shape.length = (preprocess_dims dimIn).1.length)
    (hneg : ∃ q ∈ vals w, q < 0)
    (hmax : 0 ≤ qmaxL (vals w)) :
    callMetric k a b dimIn (some w) = .error .negWeight := by
  have hstack : ∀ ndn : String,
      vals (stackDims w ndn (preprocess_dims dimIn).1) = vals w :=
    fun ndn => vals_stack_exact w ndn _ hdims hnodup hlen
  cases k with
  | rmseK =>
    show rmse a b dimIn (some w) = _
    simp only [rmse]
    rw [preprocess_neg a _ _ w hneg hmax]
    rfl
  | mseK =>
    show mse a b dimIn (some w) = _
    simp only [mse]
    rw [preprocess_neg a _ _ w hneg hmax]
    rfl
  | maeK =>
    show mae a b dimIn (some w) = _
    simp only [mae]
    rw [preprocess_neg a _ _ w hneg hmax]
    rfl
  | pearsonK =>
    show pearson_r a b dimIn (some w) = _
    simp only [pearson_r]
    by_cases hl : 1 < (preprocess_dims dimIn).1.length
    · rw [if_pos hl, Option.map_some']
      rw [preprocess_neg _ _ _ _ ((hstack _).symm ▸ hneg) ((hstack _).symm ▸ hmax)]
      rfl
    · rw [if_neg hl]
      rw [preprocess_neg _ _ _ _ hneg hmax]
      rfl
  | pearsonPK =>
    show pearson_r_p_value a b dimIn (some w) = _
    simp only [pearson_r_p_value]
    by_cases hl : 1 < (preprocess_dims dimIn).1.length
    · rw [if_pos hl, Option.map_some']
      rw [preprocess_neg _ _ _ _ ((hstack _).symm ▸ hneg) ((hstack _).symm ▸ hmax)]
      rfl
    · rw [if_neg hl]
      rw [preprocess_neg _ _ _ _ hneg hmax]
      rfl

theorem neg_weight_error_witness :
    callMetric .mseK aT aT (.str "t") (some wMix) = .error .negWeight :=
  neg_weight_error_amended .mseK aT aT (.str "t") wMix (by decide) (by decide)
    (by decide) (by decide) (by decide)

/-- C3 counterexample: weights `[-1, 1]` of size 2 against an input of size
3 have a mismatched size mapping, yet the call raises the negative-weight
error (the negative check runs first), not the dimension-mismatch error. -/
theorem dim_mismatch_error_cex :
    isNegErr (mse a3T a3T (.str "t") (some wMix)) = true ∧
    dictEq (sizesD wMix) (reqSizes a3T (.listd ["t"])) = false := by
  constructor
  · decide
  · decide

theorem effA_noStack (k : KernelId) (hk : usesStack k = false)
    (x : DArr ℚ) (d : List String) : effA k x d = x := by
  simp [effA, hk]

theorem effNd_noStack (k : KernelId) (hk : usesStack k = false)
    (d : List String) : effNd k d = .listd d := by
  simp [effNd, hk]

theorem effA_stack_multi (k : KernelId) (hk : usesStack k = true)
    (x : DArr ℚ) (d : List String) (hl : 1 < d.length) :
    effA k x d = stackDims x (joinedName d) d := by
  simp [effA, hk, hl]

theorem effA_stack_single (k : KernelId) (hk : usesStack k = true)
    (x : DArr ℚ) (d : List String) (hl : ¬ 1 < d.length) :
    effA k x d = x := by
  simp [effA, hk, hl]

theorem effNd_stack (k : KernelId) (hk : usesStack k = true)
    (d : List String) : effNd k d = .str (ndName d) := by
  simp [effNd, hk]

/-- C3 amended: for every metric function, if the weights array (as handed
to the preprocessor, i.e. after any correlation-family stacking) passes the
negative-weight check and its size mapping does not equal the size mapping
of `a` restricted by the dropped dimensions, the call raises the
dimension-mismatch validation error, whose payload carries the requested
dimension name(s) and both conflicting size mappings. -/
theorem dim_mismatch_error_amended (k : KernelId) (a b : DArr ℚ)
    (dimIn : DimInput) (w : DArr ℚ)
    (hmin : valLt0 (vminSkip (vals (normW
      (effA k w (preprocess_dims dimIn).1)))) = false)
    (hmis : dictEq (sizesD (effA k w (preprocess_dims dimIn).1))
      (reqSizes (effA k a (preprocess_dims dimIn).1)
        (effNd k (preprocess_dims dimIn).1)) = false) :
    callMetric k a b dimIn (some w) =
      .error (.dimMismatch (preprocess_dims dimIn).1
        (sizesD (effA k w (preprocess_dims dimIn).1))
        (reqSizes (effA k a (preprocess_dims dimIn).1)
          (effNd k (preprocess_dims dimIn).1))) := by
  cases k with
  | rmseK =>
    simp only [effA_noStack .rmseK rfl, effNd_noStack .rmseK rfl] at hmin hmis ⊢
    show rmse a b dimIn (some w) = _
    simp only [rmse]
    rw [preprocess_mismatch a _ _ w hmin hmis]
    rfl
  | mseK =>
    simp only [effA_noStack .mseK rfl, effNd_noStack .mseK rfl] at hmin hmis ⊢
    show mse a b dimIn (some w) = _
    simp only [mse]
    rw [preprocess_mismatch a _ _ w hmin hmis]
    rfl
  | maeK =>
    simp only [effA_noStack .maeK rfl, effNd_noStack .maeK rfl] at hmin hmis ⊢
    show mae a b dimIn (some w) = _
    simp only [mae]
    rw [preprocess_mismatch a _ _ w hmin hmis]
    rfl
  | pearsonK =>
    by_cases hl : 1 < (preprocess_dims dimIn).1.length
    · simp only [effA_stack_multi .pearsonK rfl, effNd_stack .pearsonK rfl, hl,
        ndName, joinedName, if_true] at hmin hmis ⊢
      show pearson_r a b dimIn (some w) = _
      simp only [pearson_r]
      rw [if_pos hl, Option.map_some']
      rw [preprocess_mismatch _ _ _ _ hmin hmis]
      rfl
    · simp only [effA_stack_single .pearsonK rfl _ _ hl, effNd_stack .pearsonK rfl,
        ndName, if_neg hl] at hmin hmis ⊢
      show pearson_r a b dimIn (some w) = _
      simp only [pearson_r]
      rw [if_neg hl]
      rw [preprocess_mismatch _ _ _ _ hmin hmis]
      rfl
  | pearsonPK =>
    by_cases hl : 1 < (preprocess_dims dimIn).1.length
    · simp only [effA_stack_multi .pearsonPK rfl, effNd_stack .pearsonPK rfl, hl,
        ndName, joinedName, if_true] at hmin hmis ⊢
      show pearson_r_p_value a b dimIn (some w) = _
      simp only [pearson_r_p_value]
      rw [if_pos hl, Option.map_some']
      rw [preprocess_mismatch _ _ _ _ hmin hmis]
      rfl
    · simp only [effA_stack_single .pearsonPK rfl _ _ hl, effNd_stack .pearsonPK rfl,
        ndName, if_neg hl] at hmin hmis ⊢
      show pearson_r_p_value a b dimIn (some w) = _
      simp only [pearson_r_p_value]
      rw [if_neg hl]
      rw [preprocess_mismatch _ _ _ _ hmin hmis]
      rfl

theorem dim_mismatch_error_witness :
    callMetric .rmseK a3T a3T (.str "t") (some (onesOver aT ["t"])) =
      .error (.dimMismatch (preprocess_dims (.str "t")).1
        (sizesD (effA .rmseK (onesOver aT ["t"]) (preprocess_dims (.str "t")).1))
        (reqSizes (effA .rmseK a3T (preprocess_dims (.str "t")).1)
          (effNd .rmseK (preprocess_dims (.str "t")).1))) :=
  dim_mismatch_error_amended .rmseK a3T a3T (.str "t") (onesOver aT ["t"])
    (by decide) (by decide)

/-- C4 counterexample: the all-negative weights `[-1, -2]` are accepted by
the preprocessor (no validation error), yet their normalized array
`[1, 2]` has an entry outside `[0, 1]`. -/
theorem normalized_unit_cex :
    exOk (preprocess_weights aT ["t"] (.listd ["t"]) (some wAllNeg)) = true ∧
    (vals (normW wAllNeg)).all inUnit = false := by
  constructor
  · decide
  · decide

/-- C4 amended: for every weights array accepted by the preprocessor whose
maximum is positive, every entry of the normalized weights array lies in
`[0, 1]`. -/
theorem normalized_unit_amended (a : DArr ℚ) (dimArg : List String)
    (nd : NewDim) (w : DArr ℚ) (hpos : 0 < qmaxL (vals w))
    (hok : exOk (preprocess_weights a dimArg nd (some w)) = true) :
    ∀ v ∈ vals (normW w), inUnit v = true := by
  have hmin := preprocess_ok_min hok
  intro v hv
  rw [vals_normW] at hv
  obtain ⟨q, hq, rfl⟩ := List.mem_map.mp hv
  have hne : qmaxL (vals w) ≠ 0 := ne_of_gt hpos
  have hfin : divQ q (qmaxL (vals w)) = .fin (ratDiv q (qmaxL (vals w))) := by
    rw [divQ, if_neg hne]
  have hmem2 : Val.fin (ratDiv q (qmaxL (vals w))) ∈ vals (normW w) := by
    rw [vals_normW]
    exact hfin ▸ List.mem_map_of_mem _ hq
  have hnn : ¬ (ratDiv q (qmaxL (vals w)) < 0) := by
    have hv0 := not_valLt0_entry hmin hmem2
    simpa [valLt0] using hv0
  have hle : ratDiv q (qmaxL (vals w)) ≤ 1 := by
    rw [ratDiv_eq_div]
    exact (div_le_one hpos).mpr (le_qmaxL hq)
  rw [hfin]
  simp [inUnit, not_lt.mp hnn, hle]

theorem normalized_unit_witness : inUnit (Val.fin 1) = true :=
  normalized_unit_amended aT ["t"] (.listd ["t"]) wHalf (by decide) (by decide)
    (Val.fin 1) (by decide)

/-- C9: the normalization divides by the maximum without guarding against a
non-positive maximum.  With a zero maximum every normalized entry is
non-finite (`NaN` or a signed infinity) rather than a validation error
being raised; with an all-negative weights array the division flips every
sign, so every normalized entry is a strictly positive finite value and the
subsequent minimum-below-zero check cannot raise the negative-weight
error. -/
theorem unguarded_normalization (a : DArr ℚ) (dimArg : List String)
    (nd : NewDim) (w : DArr ℚ) :
    (qmaxL (vals w) = 0 → ∀ v ∈ vals (normW w), v.isFin = false) ∧
    ((∀ q ∈ vals w, q < 0) → vals w ≠ [] →
      (∀ v ∈ vals (normW w), ∃ q : ℚ, v = .fin q ∧ 0 < q) ∧
      isNegErr (preprocess_weights a dimArg nd (some w)) = false) := by
  constructor
  · intro hm v hv
    rw [vals_normW, hm] at hv
    obtain ⟨q, hq, rfl⟩ := List.mem_map.mp hv
    rw [divQ, if_pos rfl]
    by_cases h1 : q < 0
    · simp [h1, Val.isFin]
    · by_cases h2 : 0 < q
      · simp [h1, h2, Val.isFin]
      · simp [h1, h2, Val.isFin]
  · intro hneg hne
    have hm : qmaxL (vals w) < 0 := qmaxL_neg hneg hne
    have hposall : ∀ v ∈ vals (normW w), ∃ q : ℚ, v = .fin q ∧ 0 < q := by
      intro v hv
      rw [vals_normW] at hv
      obtain ⟨q, hq, rfl⟩ := List.mem_map.mp hv
      refine ⟨ratDiv q (qmaxL (vals w)), ?_, ?_⟩
      · rw [divQ, if_neg (ne_of_lt hm)]
      · rw [ratDiv_eq_div]
        exact div_pos_of_neg_of_neg (hneg q hq) hm
    refine ⟨hposall, ?_⟩
    apply preprocess_not_negErr
    apply valLt0_vminSkip_false
    intro v hv
    obtain ⟨q, rfl, hq⟩ := hposall v hv
    simp [valLt0]
    linarith

theorem unguarded_normalization_witness :
    Val.nan.isFin = false ∧
    (∃ q : ℚ, Val.fin 1 = .fin q ∧ 0 < q) ∧
    isNegErr (preprocess_weights aT ["t"] (.listd ["t"]) (some wAllNeg)) = false :=
  ⟨(unguarded_normalization aT ["t"] (.listd ["t"]) wZero).1 (by decide)
      Val.nan (by decide),
   ((unguarded_normalization aT ["t"] (.listd ["t"]) wAllNeg).2 (by decide)
      (by decide)).1 (Val.fin 1) (by decide),
   ((unguarded_normalization aT ["t"] (.listd ["t"]) wAllNeg).2 (by decide)
      (by decide)).2⟩

/-- C6: for a correlation-family call with more than one reduction
dimension, the same stacking operation — combining the listed dimensions in
order into one dimension named by the underscore-join — is applied to `a`,
to `b`, and (when supplied) to `weights`, before weight preprocessing and
reduction; this holds identically for `pearson_r` and
`pearson_r_p_value`. -/
theorem correlation_stacking (a b : DArr ℚ) (dimIn : DimInput)
    (w : Option (DArr ℚ)) (h : 1 < (preprocess_dims dimIn).1.length) :
    (pearson_r a b dimIn w = Except.map (fun wts =>
        ⟨.pearsonK,
         stackDims a (joinedName (preprocess_dims dimIn).1) (preprocess_dims dimIn).1,
         stackDims b (joinedName (preprocess_dims dimIn).1) (preprocess_dims dimIn).1,
         wts,
         [[joinedName (preprocess_dims dimIn).1],
          [joinedName (preprocess_dims dimIn).1],
          [joinedName (preprocess_dims dimIn).1]], .one (-1)⟩)
      (preprocess_weights
        (stackDims a (joinedName (preprocess_dims dimIn).1) (preprocess_dims dimIn).1)
        (preprocess_dims dimIn).1
        (.str (joinedName (preprocess_dims dimIn).1))
        (Option.map (fun x => stackDims x (joinedName (preprocess_dims dimIn).1)
          (preprocess_dims dimIn).1) w))) ∧
    (pearson_r_p_value a b dimIn w = Except.map (fun wts =>
        ⟨.pearsonPK,
         stackDims a (joinedName (preprocess_dims dimIn).1) (preprocess_dims dimIn).1,
         stackDims b (joinedName (preprocess_dims dimIn).1) (preprocess_dims dimIn).1,
         wts,
         [[joinedName (preprocess_dims dimIn).1],
          [joinedName (preprocess_dims dimIn).1],
          [joinedName (preprocess_dims dimIn).1]], .one (-1)⟩)
      (preprocess_weights
        (stackDims a (joinedName (preprocess_dims dimIn).1) (preprocess_dims dimIn).1)
        (preprocess_dims dimIn).1
        (.str (joinedName (preprocess_dims dimIn).1))
        (Option.map (fun x => stackDims x (joinedName (preprocess_dims dimIn).1)
          (preprocess_dims dimIn).1) w))) := by
  constructor
  · simp only [pearson_r, joinedName]
    rw [if_pos h]
  · simp only [pearson_r_p_value, joinedName]
    rw [if_pos h]

theorem correlation_stacking_witness :
    pearson_r aXY aXY (.listd ["x", "y"]) none = Except.map (fun wts =>
        ⟨.pearsonK,
         stackDims aXY (joinedName ["x", "y"]) ["x", "y"],
         stackDims aXY (joinedName ["x", "y"]) ["x", "y"],
         wts, [[joinedName ["x", "y"]], [joinedName ["x", "y"]],
           [joinedName ["x", "y"]]], .one (-1)⟩)
      (preprocess_weights (stackDims aXY (joinedName ["x", "y"]) ["x", "y"])
        ["x", "y"] (.str (joinedName ["x", "y"]))
        (Option.map (fun x => stackDims x (joinedName ["x", "y"]) ["x", "y"]) none)) :=
  (correlation_stacking aXY aXY (.listd ["x", "y"]) none (by decide)).1

theorem getD_append_len {α : Type} (l : List α) (x : α) (l2 : List α) (y : α) :
    (l ++ x :: l2).getD l.length y = x := by
  induction l with
  | nil => rfl
  | cons a t ih => simpa using ih

theorem sizeIn_onesOver (a : DArr ℚ) (d : List String) (x : String)
    (hx : x ∈ d) : sizeIn (onesOver a d) x = sizeIn a x := by
  show (d.map (fun i => sizeIn a i)).getD (posOf d x) 0 = sizeIn a x
  rw [getD_map_of_lt _ d _ (posOf_lt_of_mem hx) 0 "", getD_posOf hx]

theorem sizeIn_stack_nd (a : DArr ℚ) (d : List String) (nd : String)
    (hndA : nd ∉ a.dims) :
    sizeIn (stackDims a nd d) nd = prodL (d.map (fun x => sizeIn a x)) := by
  have hkeep : ∀ i ∈ ((sizesD a).filter (fun p => !d.contains p.1)).map (·.1),
      i ∈ a.dims := by
    intro i hi
    obtain ⟨p, hp, rfl⟩ := List.mem_map.mp hi
    obtain ⟨p1, p2⟩ := p
    exact (List.of_mem_zip (List.mem_of_mem_filter hp)).1
  have hnm : nd ∉ ((sizesD a).filter (fun p => !d.contains p.1)).map (·.1) :=
    fun hc => hndA (hkeep nd hc)
  show ((((sizesD a).filter (fun p => !d.contains p.1)).map (·.2)) ++
      [prodL (d.map (fun x => sizeIn a x))]).getD
        (posOf ((((sizesD a).filter (fun p => !d.contains p.1)).map (·.1)) ++ [nd]) nd)
        0 = prodL (d.map (fun x => sizeIn a x))
  rw [posOf_append_right hnm]
  have hpos0 : posOf [nd] nd = 0 := by
    rw [posOf_cons, beq_self_eq_true, if_pos rfl]
  rw [hpos0, Nat.add_zero]
  have hlen : (((sizesD a).filter (fun p => !d.contains p.1)).map (·.1)).length =
      (((sizesD a).filter (fun p => !d.contains p.1)).map (·.2)).length := by
    simp
  rw [hlen, getD_append_len]

theorem stack_onesOver (a : DArr ℚ) (d : List String) (nd : String)
    (hndA : nd ∉ a.dims) :
    stackDims (onesOver a d) nd d = onesOver (stackDims a nd d) [nd] := by
  have hkeepW : (sizesD (onesOver a d)).filter (fun p => !d.contains p.1) = [] := by
    rw [List.filter_eq_nil]
    rintro ⟨p1, p2⟩ hp
    have hp2 : (p1, p2) ∈ d.zip (d.map (fun x => sizeIn a x)) := hp
    have hp1 : p1 ∈ d := (List.of_mem_zip hp2).1
    simp [List.contains, List.elem_iff, hp1]
  have hshapeW : d.map (fun x => sizeIn (onesOver a d) x) =
      d.map (fun x => sizeIn a x) :=
    List.map_congr_left (fun x hx => sizeIn_onesOver a d x hx)
  apply DArr.ext
  · show ((sizesD (onesOver a d)).filter (fun p => !d.contains p.1)).map (·.1)
      ++ [nd] = [nd]
    rw [hkeepW]
    rfl
  · show ((sizesD (onesOver a d)).filter (fun p => !d.contains p.1)).map (·.2)
      ++ [prodL (d.map (fun x => sizeIn (onesOver a d) x))] =
        [nd].map (fun x => sizeIn (stackDims a nd d) x)
    rw [hkeepW, hshapeW]
    show [prodL (d.map (fun x => sizeIn a x))] = [sizeIn (stackDims a nd d) nd]
    rw [sizeIn_stack_nd a d nd hndA]
  · rfl

theorem single_preprocess_ones (a : DArr ℚ) (d : List String)
    (h0 : d ≠ [])
    (hsub : ∀ x ∈ d, x ∈ a.dims)
    (h2 : a.dims.Nodup)
    (h3 : a.shape.length = a.dims.length)
    (h4 : ∀ s ∈ a.shape, 0 < s)
    (h5 : ∀ i ∈ a.dims, d.contains i = false → subStrOf i (ndName d) = false)
    (hl : ¬ 1 < d.length) :
    preprocess_weights a d (.str (d.headD "")) (some (onesOver a d)) =
      .ok (onesLike a) := by
  have h0' : 0 < d.length := List.length_pos.mpr h0
  obtain ⟨s, hs⟩ := List.length_eq_one.mp (by omega : d.length = 1)
  have hpred : ∀ i ∈ a.dims, inNewDim i (.str (d.headD "")) = d.contains i := by
    intro i hi
    by_cases hic : d.contains i = true
    · have hieq : i = s := by
        rw [hs] at hic
        simpa [List.contains, List.elem_iff] using hic
      rw [hic]
      show subStrOf i (d.headD "") = true
      rw [hieq, hs]
      exact subStr_refl s
    · have hic2 : d.contains i = false := by simpa using hic
      rw [hic2]
      show subStrOf i (d.headD "") = false
      have h5i := h5 i hi hic2
      rw [ndName, if_neg hl] at h5i
      exact h5i
  rcases preprocess_ones a d d (.str (d.headD "")) hsub h2 h3 h4 hpred
    with hres | ⟨hall, hres⟩
  · exact hres
  · have hseq : a.dims = [s] := by
      apply nodup_subset_singleton h2
      · intro i hi
        have hid : i ∈ d := hall i hi
        rw [hs] at hid
        exact List.mem_singleton.mp hid
      · apply hsub s
        rw [hs]
        exact List.mem_cons_self s []
    rw [hres]
    congr 1
    apply DArr.ext
    · show d = a.dims
      rw [hs, hseq]
    · show d.map (fun x => sizeIn a x) = a.shape
      have hmp := map_posOf_getD_eq a.dims a.shape h2 h3.symm
      calc d.map (fun x => sizeIn a x)
          = a.dims.map (fun x => sizeIn a x) := by rw [hs, hseq]
        _ = a.shape := hmp
    · rfl

theorem stacked_preprocess_ones (a : DArr ℚ) (d : List String)
    (hsub : ∀ x ∈ d, x ∈ a.dims)
    (h2 : a.dims.Nodup)
    (h3 : a.shape.length = a.dims.length)
    (h4 : ∀ s ∈ a.shape, 0 < s)
    (h5 : ∀ i ∈ a.dims, d.contains i = false → subStrOf i (ndName d) = false)
    (h6 : a.dims.contains (joinedName d) = false)
    (hl : 1 < d.length) :
    preprocess_weights (stackDims a (String.intercalate "_" d) d) d
      (.str (String.intercalate "_" d))
      (some (stackDims (onesOver a d) (String.intercalate "_" d) d)) =
      .ok (onesLike (stackDims a (String.intercalate "_" d) d)) := by
  have h6b : String.intercalate "_" d ∉ a.dims := by
    intro hc
    rw [joinedName, (show a.dims.contains (String.intercalate "_" d) = true by
      simpa [List.contains, List.elem_iff] using hc)] at h6
    cases h6
  rw [stack_onesOver a d _ h6b]
  set nd := String.intercalate "_" d with hnd
  set a2 := stackDims a nd d with ha2
  set keepF := ((sizesD a).filter (fun p => !d.contains p.1)).map (·.1) with hkeepF
  have hkeepF_mem : ∀ i ∈ keepF, i ∈ a.dims ∧ d.contains i = false := by
    intro i hi
    rw [hkeepF] at hi
    obtain ⟨p, hp, rfl⟩ := List.mem_map.mp hi
    obtain ⟨p1, p2⟩ := p
    have hz := List.mem_of_mem_filter hp
    have hpf := (List.mem_filter.mp hp).2
    exact ⟨(List.of_mem_zip hz).1, by simpa using hpf⟩
  have ha2dims : a2.dims = keepF ++ [nd] := rfl
  have h2x : a2.dims.Nodup := by
    rw [ha2dims]
    apply List.Nodup.append
    · rw [hkeepF]
      have hsub : List.Sublist
          (((sizesD a).filter (fun p => !d.contains p.1)).map (·.1))
          ((sizesD a).map (·.1)) := List.Sublist.map _ (List.filter_sublist _)
      have hma : (sizesD a).map (·.1) = a.dims := map_fst_zip_eq a.dims a.shape h3.symm
      exact List.Nodup.sublist (hma ▸ hsub) h2
    · exact List.nodup_singleton nd
    · intro x hx hx2
      have hxe : x = nd := List.mem_singleton.mp hx2
      exact h6b (hxe ▸ (hkeepF_mem x hx).1)
  have h3x : a2.shape.length = a2.dims.length := by
    show (((sizesD a).filter (fun p => !d.contains p.1)).map (·.2) ++
      [prodL (d.map (fun x => sizeIn a x))]).length = (keepF ++ [nd]).length
    rw [hkeepF]
    simp
  have hsubd : ∀ x ∈ d, x ∈ a.dims := hsub
  have h4x : ∀ s ∈ a2.shape, 0 < s := by
    intro s hs
    have hs2 : s ∈ ((sizesD a).filter (fun p => !d.contains p.1)).map (·.2) ++
        [prodL (d.map (fun x => sizeIn a x))] := hs
    rcases List.mem_append.mp hs2 with hs3 | hs3
    · obtain ⟨p, hp, rfl⟩ := List.mem_map.mp hs3
      obtain ⟨p1, p2⟩ := p
      exact h4 _ (List.of_mem_zip (List.mem_of_mem_filter hp)).2
    · rw [List.mem_singleton.mp hs3]
      apply prodL_pos
      intro t ht
      obtain ⟨x, hx, rfl⟩ := List.mem_map.mp ht
      exact sizeIn_pos a x (hsubd x hx) h3 h4
  have hpredx : ∀ i ∈ a2.dims, inNewDim i (.str nd) = [nd].contains i := by
    intro i hi
    rw [ha2dims] at hi
    rcases List.mem_append.mp hi with hif | hif
    · obtain ⟨hia, hic⟩ := hkeepF_mem i hif
      have hine : i ≠ nd := fun hc => h6b (hc ▸ hia)
      have h5i := h5 i hia hic
      rw [ndName, if_pos hl, joinedName] at h5i
      show subStrOf i nd = [nd].contains i
      rw [h5i]
      symm
      simpa [List.contains, List.elem_iff] using hine
    · have hie : i = nd := List.mem_singleton.mp hif
      rw [hie]
      show subStrOf nd nd = [nd].contains nd
      rw [subStr_refl]
      simp [List.contains]
  have hndin : nd ∈ a2.dims := by
    rw [ha2dims]
    exact List.mem_append_right _ (List.mem_cons_self nd [])
  rcases preprocess_ones a2 d [nd] (.str nd)
      (fun x hx => by
        rw [List.mem_singleton.mp hx]
        exact hndin)
      h2x h3x h4x hpredx with hres | ⟨hall, hres⟩
  · exact hres
  · have hseq : a2.dims = [nd] := by
      apply nodup_subset_singleton h2x
      · intro i hi
        exact List.mem_singleton.mp (hall i hi)
      · exact hndin
    rw [hres]
    congr 1
    apply DArr.ext
    · show [nd] = a2.dims
      rw [hseq]
    · show [nd].map (fun x => sizeIn a2 x) = a2.shape
      have hmp := map_posOf_getD_eq a2.dims a2.shape h2x h3x.symm
      calc [nd].map (fun x => sizeIn a2 x)
          = a2.dims.map (fun x => sizeIn a2 x) := by rw [hseq]
        _ = a2.shape := hmp
    · rfl

theorem sizeIn_mk_map {α : Type} (d : List String) (f : String → Nat)
    (g : List Nat → α) (x : String) (hx : x ∈ d) :
    sizeIn (⟨d, d.map f, g⟩ : DArr α) x = f x := by
  show (d.map f).getD (posOf d x) 0 = f x
  rw [getD_map_of_lt f d _ (posOf_lt_of_mem hx) 0 x, getD_posOf hx]

theorem transpose_ones_eq (a : DArr ℚ) (d : List String)
    (hall : ∀ i ∈ a.dims, i ∈ d) :
    transposeCore d (onesLike a) =
      transposeCore d
        (⟨d, d.map (fun x => sizeIn a x), fun _ => Val.fin 1⟩ : DArr Val) := by
  have hfa : a.dims.filter (fun i => !d.contains i) = [] := by
    rw [List.filter_eq_nil]
    intro i hi
    simp [List.contains, List.elem_iff, hall i hi]
  have hfd : d.filter (fun i => !d.contains i) = [] := by
    rw [List.filter_eq_nil]
    intro i hi
    simp [List.contains, List.elem_iff, hi]
  apply DArr.ext
  · show a.dims.filter (fun i => !d.contains i) ++ d =
      d.filter (fun i => !d.contains i) ++ d
    rw [hfa, hfd]
  · show (a.dims.filter (fun i => !d.contains i) ++ d).map
        (fun i => sizeIn (onesLike a) i) =
      (d.filter (fun i => !d.contains i) ++ d).map
        (fun i => sizeIn (⟨d, d.map (fun x => sizeIn a x),
          fun _ => Val.fin 1⟩ : DArr Val) i)
    rw [hfa, hfd]
    simp only [List.nil_append]
    apply List.map_congr_left
    intro x hx
    rw [sizeIn_mk_map d _ _ x hx]
    rfl
  · rfl

theorem canon_rec_eq (k : KernelId) (a b : DArr ℚ) (d : List String)
    (ax : List Int) (W : DArr Val)
    (hW : transposeCore d (onesLike a) = transposeCore d W) :
    canonCall ⟨k, a, b, onesLike a, [d, d, d], .many ax⟩ =
      canonCall ⟨k, a, b, W, [d, d, d], .many ax⟩ := by
  show (⟨k, transposeCore d a, transposeCore d b, transposeCore d (onesLike a),
      [d, d, d], .many ax⟩ : UfuncCall) =
    ⟨k, transposeCore d a, transposeCore d b, transposeCore d W,
      [d, d, d], .many ax⟩
  rw [hW]

/-- C2 counterexample: over an array with dimensions `("tim", "time")`,
reducing over `"time"`, `pearson_r` with `weights=None` succeeds while the
same call with an explicit all-ones weights array over the reduction
dimension (the matching shape) raises the dimension-mismatch error: the
substring test `i not in new_dim` keeps `"tim"` (a substring of `"time"`)
in the required size mapping.  The two calls therefore do not return the
same result. -/
theorem uniform_weight_equiv_cex :
    exOk (pearson_r aSub aSub (.str "time") none) = true ∧
    isDimErr (pearson_r aSub aSub (.str "time")
      (some (onesOver aSub ["time"]))) = true := by
  constructor
  · decide
  · decide

/-- C2 amended: for every metric function and all valid inputs — reduction
dimensions nonempty, present on `a`, with distinct names and positive
sizes, no non-reduced dimension name a substring of the string `new_dim`
handed to the weight preprocessor, and (for multi-dimension
correlation-family calls) the underscore-joined name not an existing
dimension — calling with `weights=None` issues the same canonical
`apply_ufunc` invocation, hence returns the same result, as calling with
an explicit all-ones weights array over the reduction dimensions of
matching sizes. -/
theorem uniform_weight_equiv_amended (k : KernelId) (a b : DArr ℚ)
    (dimIn : DimInput)
    (h0 : (preprocess_dims dimIn).1 ≠ [])
    (hsub : ∀ x ∈ (preprocess_dims dimIn).1, x ∈ a.dims)
    (h2 : a.dims.Nodup)
    (h3 : a.shape.length = a.dims.length)
    (h4 : ∀ s ∈ a.shape, 0 < s)
    (h5 : ∀ i ∈ a.dims, (preprocess_dims dimIn).1.contains i = false →
      subStrOf i (ndName (preprocess_dims dimIn).1) = false)
    (h6 : 1 < (preprocess_dims dimIn).1.length →
      a.dims.contains (joinedName (preprocess_dims dimIn).1) = false) :
    Except.map canonCall (callMetric k a b dimIn none) =
      Except.map canonCall
        (callMetric k a b dimIn (some (onesOver a (preprocess_dims dimIn).1))) := by
  cases k with
  | rmseK =>
    show Except.map canonCall (rmse a b dimIn none) = Except.map canonCall
      (rmse a b dimIn (some (onesOver a (preprocess_dims dimIn).1)))
    simp only [rmse]
    rcases preprocess_ones a (preprocess_dims dimIn).1 (preprocess_dims dimIn).1
        (.listd (preprocess_dims dimIn).1) hsub h2 h3 h4 (fun i _ => rfl)
      with hres | ⟨hall, hres⟩
    · rw [hres]
      rfl
    · rw [hres]
      exact congrArg Except.ok
        (canon_rec_eq .rmseK a b (preprocess_dims dimIn).1 (preprocess_dims dimIn).2
          _ (transpose_ones_eq a (preprocess_dims dimIn).1 hall))
  | mseK =>
    show Except.map canonCall (mse a b dimIn none) = Except.map canonCall
      (mse a b dimIn (some (onesOver a (preprocess_dims dimIn).1)))
    simp only [mse]
    rcases preprocess_ones a (preprocess_dims dimIn).1 (preprocess_dims dimIn).1
        (.listd (preprocess_dims dimIn).1) hsub h2 h3 h4 (fun i _ => rfl)
      with hres | ⟨hall, hres⟩
    · rw [hres]
      rfl
    · rw [hres]
      exact congrArg Except.ok
        (canon_rec_eq .mseK a b (preprocess_dims dimIn).1 (preprocess_dims dimIn).2
          _ (transpose_ones_eq a (preprocess_dims dimIn).1 hall))
  | maeK =>
    show Except.map canonCall (mae a b dimIn none) = Except.map canonCall
      (mae a b dimIn (some (onesOver a (preprocess_dims dimIn).1)))
    simp only [mae]
    rcases preprocess_ones a (preprocess_dims dimIn).1 (preprocess_dims dimIn).1
        (.listd (preprocess_dims dimIn).1) hsub h2 h3 h4 (fun i _ => rfl)
      with hres | ⟨hall, hres⟩
    · rw [hres]
      rfl
    · rw [hres]
      exact congrArg Except.ok
        (canon_rec_eq .maeK a b (preprocess_dims dimIn).1 (preprocess_dims dimIn).2
          _ (transpose_ones_eq a (preprocess_dims dimIn).1 hall))
  | pearsonK =>
    show Except.map canonCall (pearson_r a b dimIn none) = Except.map canonCall
      (pearson_r a b dimIn (some (onesOver a (preprocess_dims dimIn).1)))
    simp only [pearson_r]
    by_cases hl : 1 < (preprocess_dims dimIn).1.length
    · rw [if_pos hl, if_pos hl, Option.map_some',
        stacked_preprocess_ones a (preprocess_dims dimIn).1 hsub h2 h3 h4 h5 (h6 hl) hl]
      rfl
    · rw [if_neg hl, if_neg hl,
        single_preprocess_ones a (preprocess_dims dimIn).1 h0 hsub h2 h3 h4 h5 hl]
      rfl
  | pearsonPK =>
    show Except.map canonCall (pearson_r_p_value a b dimIn none) =
      Except.map canonCall
        (pearson_r_p_value a b dimIn (some (onesOver a (preprocess_dims dimIn).1)))
    simp only [pearson_r_p_value]
    by_cases hl : 1 < (preprocess_dims dimIn).1.length
    · rw [if_pos hl, if_pos hl, Option.map_some',
        stacked_preprocess_ones a (preprocess_dims dimIn).1 hsub h2 h3 h4 h5 (h6 hl) hl]
      rfl
    · rw [if_neg hl, if_neg hl,
        single_preprocess_ones a (preprocess_dims dimIn).1 h0 hsub h2 h3 h4 h5 hl]
      rfl

theorem uniform_weight_equiv_amended_witness :
    Except.map canonCall (callMetric .mseK aXY aXY (.listd ["y", "x"]) none) =
      Except.map canonCall
        (callMetric .mseK aXY aXY (.listd ["y", "x"])
          (some (onesOver aXY (preprocess_dims (.listd ["y", "x"])).1))) :=
  uniform_weight_equiv_amended .mseK aXY aXY (.listd ["y", "x"]) (by decide)
    (by decide) (by decide) (by decide) (by decide) (by decide) (by decide)

theorem substring_drop_dims_witness :
    "tim" ∉ dropDimsOf aSub (.str "time") ∧
    dlook (reqSizes aSub (.str "time")) "tim" = some (sizeIn aSub "tim") :=
  substring_drop_dims aSub "time" "tim" (by decide) (by decide) (by decide)
